import Mathlib

/-! MVCC garbage collector (`storage/engine/gc.go`)

A shallow embedding of `GarbageCollector.Filter` and of the data it works on.
Byte strings are lists of naturals, Go's `int64` arithmetic is integer
arithmetic followed by an explicit two's-complement wrap, and a failing slice
index is an explicit `GoPanic` result.  The key decoder `MVCCDecodeKey` and the
protobuf `Unmarshal` live outside `gc.go`; they are parameters of the model.
-/

namespace GC

/-- An encoded key, `proto.EncodedKey` (a byte slice). -/
abbrev EncodedKey := List Nat

/-- A decoded key, `proto.Key` (a byte slice). -/
abbrev Key := List Nat

/-- Modelled from the spec: the type `proto.Timestamp`, declared outside `gc.go`.
A logical timestamp is an ordered pair of wall-clock nanoseconds (`int64`) and
a tie-breaking logical counter (`int32`). -/
structure Timestamp where
  WallTime : Int
  Logical : Int
  deriving DecidableEq, Repr

/-- Modelled from the spec: the method `proto.Timestamp.Less`, declared outside
`gc.go`.  Comparison is lexicographic on the pair (wall time, logical). -/
def Timestamp.Less (t s : Timestamp) : Bool :=
  decide (t.WallTime < s.WallTime) ||
    (decide (t.WallTime = s.WallTime) && decide (t.Logical < s.Logical))

/-- Modelled from the spec: the type `proto.GCPolicy`, declared outside `gc.go`.
A retention policy holds a time-to-live in seconds (`int32`). -/
structure GCPolicy where
  TTLSeconds : Int
  deriving DecidableEq, Repr

/-- Modelled from the spec: the type `proto.MVCCValue`, declared outside
`gc.go`.  A value record holds the tombstone flag and the payload bytes. -/
structure MVCCValue where
  Deleted : Bool
  Bytes : List Nat
  deriving DecidableEq, Repr

/-- The run-time failures of the Go code that the model makes explicit. -/
inductive GoPanic where
  | indexOutOfRange
  deriving DecidableEq, Repr

deriving instance DecidableEq for Except

/-- The collaborators of `Filter` that are defined outside `gc.go`:
`MVCCDecodeKey` returns the decoded key, the timestamp and the `isValue` flag;
`Unmarshal` is `gogoproto.Unmarshal` into an `MVCCValue`, `none` on error. -/
structure Codec where
  MVCCDecodeKey : EncodedKey → Key × Timestamp × Bool
  Unmarshal : List Nat → Option MVCCValue

/-- The struct `GarbageCollector`: the time at the start of the collection and
the policy lookup (`none` is Go's `nil` policy). -/
structure GarbageCollector where
  now : Timestamp
  policyFn : Key → Option GCPolicy

/-- The constructor `NewGarbageCollector`. -/
def NewGarbageCollector (now : Timestamp) (policyFn : Key → Option GCPolicy) :
    GarbageCollector :=
  { now := now, policyFn := policyFn }

/-- Two's-complement wrap of an integer into the range of Go's `int64`. -/
def wrapInt64 (x : Int) : Int :=
  (x + 9223372036854775808) % 18446744073709551616 - 9223372036854775808

/-- The lines `expiration := gc.now; expiration.WallTime -= int64(policy.TTLSeconds) * 1E9`. -/
def expirationOf (now : Timestamp) (policy : GCPolicy) : Timestamp :=
  { now with
    WallTime := wrapInt64 (now.WallTime - wrapInt64 (policy.TTLSeconds * 1000000000)) }

/-- The assignment `s[i] = v` on a slice of booleans; it panics out of range. -/
def setIdx (s : List Bool) (i : Nat) (v : Bool) : Except GoPanic (List Bool) :=
  if i < s.length then .ok (s.set i v) else .error .indexOutOfRange

/-- How the loop over `keys[1:]` ends: by one of its `return` statements, or by
running to the end with the current `toDelete` and `survivors`. -/
inductive LoopExit where
  | ret (result : List Bool)
  | done (toDelete : List Bool) (survivors : Bool)
  deriving DecidableEq, Repr

/-- The loop `for i, key := range keys[1:]` of `Filter`.  `n` is `len(keys)`,
the first list argument holds the keys still to visit and `i` is the loop
index of its head. -/
def filterLoop (c : Codec) (expiration : Timestamp) (n : Nat) (values : List (List Nat)) :
    List EncodedKey → Nat → List Bool → Bool → Except GoPanic LoopExit
  | [], _, toDelete, survivors => .ok (.done toDelete survivors)
  | key :: rest, i, toDelete, survivors =>
    if (c.MVCCDecodeKey key).2.2 = false then
      .ok (.ret (List.replicate n false))
    else
      match values[i + 1]? with
      | none => .error .indexOutOfRange
      | some value =>
        match c.Unmarshal value with
        | none => .ok (.ret (List.replicate n false))
        | some mvccVal =>
          if i = 0 then
            filterLoop c expiration n values rest (i + 1) toDelete
              (if mvccVal.Deleted = false then true else survivors)
          else if (c.MVCCDecodeKey key).2.1.Less expiration = true then
            match setIdx toDelete (i + 1) true with
            | .error e => .error e
            | .ok toDelete1 =>
              filterLoop c expiration n values rest (i + 1) toDelete1 survivors
          else
            filterLoop c expiration n values rest (i + 1) toDelete
              (if mvccVal.Deleted = false then true else survivors)

/-- The loop `for i := range keys { toDelete[i] = true }`, over the indices it visits. -/
def markAll : List Nat → List Bool → Except GoPanic (List Bool)
  | [], toDelete => .ok toDelete
  | i :: is, toDelete =>
    match setIdx toDelete i true with
    | .error e => .error e
    | .ok toDelete1 => markAll is toDelete1

/-- The method `GarbageCollector.Filter`.  The result `none` is Go's `nil`
slice ("no deletions"); `some l` is an allocated slice of verdicts. -/
def Filter (c : Codec) (gc : GarbageCollector) (keys : List EncodedKey)
    (values : List (List Nat)) : Except GoPanic (Option (List Bool)) :=
  if keys.length = 1 then .ok none
  else
    match keys with
    | [] => .error .indexOutOfRange
    | key0 :: rest =>
      if (c.MVCCDecodeKey key0).2.2 = true then
        .ok (some (List.replicate keys.length false))
      else
        match gc.policyFn (c.MVCCDecodeKey key0).1 with
        | none => .ok none
        | some policy =>
          if policy.TTLSeconds ≤ 0 then .ok none
          else
            match filterLoop c (expirationOf gc.now policy) keys.length values rest 0
                (List.replicate keys.length false) false with
            | .error e => .error e
            | .ok (.ret result) => .ok (some result)
            | .ok (.done toDelete survivors) =>
              if survivors = false then
                match markAll (List.range keys.length) toDelete with
                | .error e => .error e
                | .ok toDelete1 => .ok (some toDelete1)
              else .ok (some toDelete)

/-! ## The calls that `Filter` makes

`Filter` and its loop once more, with the calls to the collaborators
(`MVCCDecodeKey`, `policyFn`, `Unmarshal`) recorded in the order in which the
code makes them. -/

/-- A call to one of the collaborators of `Filter`, with its argument. -/
inductive Call where
  | decodeKey (key : EncodedKey)
  | policyFn (key : Key)
  | unmarshal (value : List Nat)
  deriving DecidableEq, Repr

/-- The loop `for i, key := range keys[1:]` of `Filter` with its calls: each
iteration calls `MVCCDecodeKey(key)` and then, if the key is a version and
`values[i+1]` is in range, `Unmarshal(values[i+1])`.  The last argument holds
the calls made so far. -/
def filterLoopCalls (c : Codec) (expiration : Timestamp) (n : Nat)
    (values : List (List Nat)) :
    List EncodedKey → Nat → List Bool → Bool → List Call →
      Except GoPanic LoopExit × List Call
  | [], _, toDelete, survivors, calls => (.ok (.done toDelete survivors), calls)
  | key :: rest, i, toDelete, survivors, calls =>
    if (c.MVCCDecodeKey key).2.2 = false then
      (.ok (.ret (List.replicate n false)), calls ++ [.decodeKey key])
    else
      match values[i + 1]? with
      | none => (.error .indexOutOfRange, calls ++ [.decodeKey key])
      | some value =>
        match c.Unmarshal value with
        | none =>
          (.ok (.ret (List.replicate n false)), calls ++ [.decodeKey key, .unmarshal value])
        | some mvccVal =>
          if i = 0 then
            filterLoopCalls c expiration n values rest (i + 1) toDelete
              (if mvccVal.Deleted = false then true else survivors)
              (calls ++ [.decodeKey key, .unmarshal value])
          else if (c.MVCCDecodeKey key).2.1.Less expiration = true then
            match setIdx toDelete (i + 1) true with
            | .error e => (.error e, calls ++ [.decodeKey key, .unmarshal value])
            | .ok toDelete1 =>
              filterLoopCalls c expiration n values rest (i + 1) toDelete1 survivors
                (calls ++ [.decodeKey key, .unmarshal value])
          else
            filterLoopCalls c expiration n values rest (i + 1) toDelete
              (if mvccVal.Deleted = false then true else survivors)
              (calls ++ [.decodeKey key, .unmarshal value])

/-- The method `GarbageCollector.Filter` with its calls: the result of `Filter`
together with the list of the calls to `MVCCDecodeKey`, `policyFn` and
`Unmarshal` made on the way, in order. -/
def FilterCalls (c : Codec) (gc : GarbageCollector) (keys : List EncodedKey)
    (values : List (List Nat)) : Except GoPanic (Option (List Bool)) × List Call :=
  if keys.length = 1 then (.ok none, [])
  else
    match keys with
    | [] => (.error .indexOutOfRange, [])
    | key0 :: rest =>
      if (c.MVCCDecodeKey key0).2.2 = true then
        (.ok (some (List.replicate keys.length false)), [.decodeKey key0])
      else
        match gc.policyFn (c.MVCCDecodeKey key0).1 with
        | none => (.ok none, [.decodeKey key0, .policyFn (c.MVCCDecodeKey key0).1])
        | some policy =>
          if policy.TTLSeconds ≤ 0 then
            (.ok none, [.decodeKey key0, .policyFn (c.MVCCDecodeKey key0).1])
          else
            match filterLoopCalls c (expirationOf gc.now policy) keys.length values rest 0
                (List.replicate keys.length false) false
                [.decodeKey key0, .policyFn (c.MVCCDecodeKey key0).1] with
            | (.error e, calls) => (.error e, calls)
            | (.ok (.ret result), calls) => (.ok (some result), calls)
            | (.ok (.done toDelete survivors), calls) =>
              if survivors = false then
                match markAll (List.range keys.length) toDelete with
                | .error e => (.error e, calls)
                | .ok toDelete1 => (.ok (some toDelete1), calls)
              else (.ok (some toDelete), calls)

/-! ## A concrete codec for closed examples

Keys are read as `[isValue, wallSeconds]` and values as `[deleted?]`: a key
whose first byte is non-zero is a version whose timestamp is its second byte in
seconds; a value is a tombstone when its first byte is non-zero, and the empty
value does not unmarshal. -/

/-- A small key decoder used in the closed examples. -/
def demoDecodeKey (k : EncodedKey) : Key × Timestamp × Bool :=
  match k with
  | [] => ([], ⟨0, 0⟩, false)
  | [_] => ([], ⟨0, 0⟩, false)
  | b :: w :: _ => ([], ⟨(w : Int) * 1000000000, 0⟩, decide (b ≠ 0))

/-- A small value decoder used in the closed examples. -/
def demoUnmarshal (v : List Nat) : Option MVCCValue :=
  match v with
  | [] => none
  | d :: bs => some ⟨decide (d ≠ 0), bs⟩

/-- The codec of the closed examples. -/
def demoCodec : Codec := ⟨demoDecodeKey, demoUnmarshal⟩

/-- A collector at `now = 200 s` whose policy is a TTL of 100 seconds for every
key, so that the expiration is at 100 s. -/
def demoGC : GarbageCollector :=
  NewGarbageCollector ⟨200000000000, 0⟩ (fun _ => some ⟨100⟩)

/-- A collector at `now = 200 s` with no policy for any key. -/
def demoGCNoPolicy : GarbageCollector :=
  NewGarbageCollector ⟨200000000000, 0⟩ (fun _ => none)

/-- The method `GarbageCollector.MVCCPrefix`.  `DecodeBinary` is
`encoding.DecodeBinary`, defined outside `gc.go`; it returns the bytes it left
unconsumed and the decoded bytes, and only the first is used. -/
def MVCCPrefix (DecodeBinary : List Nat → List Nat × List Nat) (_gc : GarbageCollector)
    (key : EncodedKey) : Int :=
  (key.length : Int) - ((DecodeBinary key).1.length : Int)

/-! ## The declarative reading of `Filter`

The versions of a batch are seen as pairs of a timestamp and a tombstone flag,
the newest one apart from the older ones. -/

/-- The survivors flag in closed form: the newest version is not a tombstone,
or some older version is neither older than the expiration nor a tombstone. -/
def closedSurvivors (expiration : Timestamp) (newest : Timestamp × Bool)
    (older : List (Timestamp × Bool)) : Bool :=
  !newest.2 || older.any (fun x => !x.1.Less expiration && !x.2)

/-- The verdicts in closed form: "not survivors" at indices 0 and 1, and
"not survivors, or older than the expiration" at every later index. -/
def closedForm (expiration : Timestamp) (newest : Timestamp × Bool)
    (older : List (Timestamp × Bool)) : List Bool :=
  (!closedSurvivors expiration newest older) ::
    (!closedSurvivors expiration newest older) ::
      older.map (fun x => !closedSurvivors expiration newest older || x.1.Less expiration)

/-! ## Further data for closed examples -/

/-- A key decoder with nanosecond wall time and a logical counter: a key is
read as `[isValue, wallNanos, logical]`. -/
def fineDecodeKey (k : EncodedKey) : Key × Timestamp × Bool :=
  match k with
  | b :: w :: l :: _ => ([], ⟨(w : Int), (l : Int)⟩, decide (b ≠ 0))
  | _ => ([], ⟨0, 0⟩, false)

/-- The codec with the fine-grained key decoder. -/
def fineCodec : Codec := ⟨fineDecodeKey, demoUnmarshal⟩

/-- A collector at `now = (1 s + 100 ns, logical 5)` with a TTL of one second,
so that the expiration is `(100 ns, logical 5)`. -/
def fineGC : GarbageCollector :=
  NewGarbageCollector ⟨1000000100, 5⟩ (fun _ => some ⟨1⟩)

/-- A collector at `now = 200 s` whose policy is a TTL of 150 seconds. -/
def demoGC150 : GarbageCollector :=
  NewGarbageCollector ⟨200000000000, 0⟩ (fun _ => some ⟨150⟩)

/-- A collector at `now = 250 s` whose policy is a TTL of 100 seconds. -/
def demoGC250 : GarbageCollector :=
  NewGarbageCollector ⟨250000000000, 0⟩ (fun _ => some ⟨100⟩)

/-- A collector at `now = 200 s` whose policy has a TTL of zero. -/
def demoGCZero : GarbageCollector :=
  NewGarbageCollector ⟨200000000000, 0⟩ (fun _ => some ⟨0⟩)

/-- A length-prefixed key encoding for the closed examples of `MVCCPrefix`. -/
def demoEncodeBinary (lk : Key) : List Nat := lk.length :: lk

/-- The decoder of the length-prefixed encoding: the unconsumed bytes and the
decoded key. -/
def demoDecodeBinary (b : List Nat) : List Nat × List Nat :=
  match b with
  | [] => ([], [])
  | n :: rest => (rest.drop n, rest.take n)

/-! ## Slice assignment and the final marking loop -/

theorem setIdx_of_lt (s : List Bool) (i : Nat) (v : Bool) (h : i < s.length) :
    setIdx s i v = .ok (s.set i v) := by
  simp [setIdx, h]

theorem markAll_spec (idxs : List Nat) :
    ∀ td : List Bool, (∀ i ∈ idxs, i < td.length) →
      ∃ td1, markAll idxs td = .ok td1 ∧ td1.length = td.length ∧
        ∀ j, td1[j]? = if j ∈ idxs then some true else td[j]? := by
  induction idxs with
  | nil => intro td _; exact ⟨td, rfl, rfl, by simp⟩
  | cons i rest ih =>
    intro td h
    have hi : i < td.length := h i (by simp)
    obtain ⟨td1, h1, h2, h3⟩ := ih (td.set i true) (by
      intro j hj
      simpa using h j (by simp [hj]))
    refine ⟨td1, ?_, by simpa using h2, ?_⟩
    · simp [markAll, setIdx_of_lt _ _ _ hi, h1]
    · intro j
      rw [h3 j]
      by_cases hj : j ∈ rest
      · simp [hj]
      · by_cases hji : j = i
        · subst hji
          simp [hj, hi]
        · have : i ≠ j := fun e => hji e.symm
          simp [hj, hji, List.getElem?_set, this]

theorem markAll_range (n : Nat) (td : List Bool) (h : td.length = n) :
    markAll (List.range n) td = .ok (List.replicate n true) := by
  obtain ⟨td1, h1, h2, h3⟩ := markAll_spec (List.range n) td (by
    intro i hi
    simpa [h] using hi)
  rw [h1]
  congr 1
  apply List.ext_getElem?
  intro j
  rw [h3 j]
  by_cases hj : j < n
  · simp [hj, List.getElem?_replicate]
  · have : td.length ≤ j := by omega
    simp [hj, List.getElem?_replicate, List.getElem?_eq_none this]

/-! ## The loop over the versions -/

theorem drop_cons_inv {α : Type} (l : List α) (i : Nat) (k : α) (r : List α)
    (h : k :: r = l.drop i) : l[i]? = some k ∧ r = l.drop (i + 1) := by
  constructor
  · have := congrArg (fun x => x[0]?) h
    simpa [List.getElem?_drop] using this.symm
  · have := congrArg List.tail h
    simpa [List.drop_drop, Nat.add_comm] using this

/-- A malformed entry among the keys still to visit makes the loop return the
all-false slice. -/
theorem filterLoop_malformed (c : Codec) (e : Timestamp) (n : Nat)
    (keys : List EncodedKey) (values : List (List Nat)) :
    ∀ (rest : List EncodedKey) (i : Nat) (td : List Bool) (s : Bool),
      rest = keys.drop (i + 1) →
      keys.length ≤ values.length →
      keys.length ≤ td.length →
      (∃ j k, i + 1 ≤ j ∧ keys[j]? = some k ∧
        ((c.MVCCDecodeKey k).2.2 = false ∨
          ∃ v, values[j]? = some v ∧ c.Unmarshal v = none)) →
      filterLoop c e n values rest i td s = .ok (.ret (List.replicate n false)) := by
  intro rest
  induction rest with
  | nil =>
    intro i td s hr _ _ ⟨j, k, hj, hk, _⟩
    have h1 : keys.length ≤ i + 1 := by
      have := congrArg List.length hr
      simp at this
      omega
    have : keys[j]? = none := List.getElem?_eq_none (by omega)
    simp [this] at hk
  | cons k0 r ih =>
    intro i td s hr hv ht hbad
    obtain ⟨hk0, hr1⟩ := drop_cons_inv keys (i + 1) k0 r hr
    have hlt : i + 1 < keys.length := by
      by_contra hc
      have : keys[i + 1]? = none := List.getElem?_eq_none (by omega)
      simp [this] at hk0
    unfold filterLoop
    by_cases hiv : (c.MVCCDecodeKey k0).2.2 = false
    · simp [hiv]
    · have hvl : i + 1 < values.length := by omega
      simp only [hiv, if_false, List.getElem?_eq_getElem hvl]
      cases hu : c.Unmarshal values[i + 1] with
      | none => simp
      | some mv =>
        have hbad1 : ∃ j k, i + 1 + 1 ≤ j ∧ keys[j]? = some k ∧
            ((c.MVCCDecodeKey k).2.2 = false ∨
              ∃ v, values[j]? = some v ∧ c.Unmarshal v = none) := by
          obtain ⟨j, k, hj, hk, hb⟩ := hbad
          refine ⟨j, k, ?_, hk, hb⟩
          by_contra hc
          have hje : j = i + 1 := by omega
          subst hje
          rw [hk0] at hk
          cases hk
          rcases hb with hb | ⟨v, hv1, hv2⟩
          · exact hiv hb
          · rw [List.getElem?_eq_getElem hvl] at hv1
            cases hv1
            rw [hu] at hv2
            cases hv2
        simp only []
        by_cases hi0 : i = 0
        · simp only [hi0, if_true]
          exact ih 1 td _ (by simpa [hi0] using hr1) hv ht (by simpa [hi0] using hbad1)
        · simp only [hi0, if_false]
          by_cases hl : (c.MVCCDecodeKey k0).2.1.Less e = true
          · simp only [hl, if_true, setIdx_of_lt td (i + 1) true (by omega)]
            exact ih (i + 1) _ _ hr1 hv (by simpa using ht) hbad1
          · simp only [hl, if_false]
            exact ih (i + 1) _ _ hr1 hv ht hbad1

/-- On well-formed versions the loop runs to its end; the marks it leaves are
the age marks at indices from 2 on, and `survivors` records a live version
that is the newest one or is not older than the expiration. -/
theorem filterLoop_wellFormed (c : Codec) (e : Timestamp) (n : Nat)
    (keys : List EncodedKey) (values : List (List Nat)) :
    ∀ (rest : List EncodedKey) (i : Nat) (td : List Bool) (s : Bool),
      rest = keys.drop (i + 1) →
      keys.length ≤ values.length →
      keys.length ≤ td.length →
      (∀ j k v, i + 1 ≤ j → keys[j]? = some k → values[j]? = some v →
        (c.MVCCDecodeKey k).2.2 = true ∧ ∃ mv, c.Unmarshal v = some mv) →
      ∃ td1 s1, filterLoop c e n values rest i td s = .ok (.done td1 s1) ∧
        td1.length = td.length ∧
        (∀ j, td1[j]? = some true ↔
          (td[j]? = some true ∨
            (i + 1 ≤ j ∧ 2 ≤ j ∧ ∃ k, keys[j]? = some k ∧
              (c.MVCCDecodeKey k).2.1.Less e = true))) ∧
        (s1 = true ↔
          (s = true ∨ ∃ j k v mv, i + 1 ≤ j ∧ keys[j]? = some k ∧ values[j]? = some v ∧
            c.Unmarshal v = some mv ∧ mv.Deleted = false ∧
            (j = 1 ∨ (c.MVCCDecodeKey k).2.1.Less e = false))) := by
  intro rest
  induction rest with
  | nil =>
    intro i td s hr _ _ _
    have h1 : keys.length ≤ i + 1 := by
      have := congrArg List.length hr
      simp at this
      omega
    have hnone : ∀ j, i + 1 ≤ j → keys[j]? = none :=
      fun j hj => List.getElem?_eq_none (by omega)
    refine ⟨td, s, rfl, rfl, ?_, ?_⟩
    · intro j
      constructor
      · intro h; exact Or.inl h
      · rintro (h | ⟨hj, _, k, hk, _⟩)
        · exact h
        · rw [hnone j hj] at hk; cases hk
    · constructor
      · intro h; exact Or.inl h
      · rintro (h | ⟨j, k, v, mv, hj, hk, _⟩)
        · exact h
        · rw [hnone j hj] at hk; cases hk
  | cons k0 r ih =>
    intro i td s hr hv ht hwf
    obtain ⟨hk0, hr1⟩ := drop_cons_inv keys (i + 1) k0 r hr
    have hlt : i + 1 < keys.length := by
      by_contra hc
      have : keys[i + 1]? = none := List.getElem?_eq_none (by omega)
      simp [this] at hk0
    have hvl : i + 1 < values.length := by omega
    have hv0 : values[i + 1]? = some values[i + 1] := List.getElem?_eq_getElem hvl
    obtain ⟨hiv, mv, hu⟩ := hwf (i + 1) k0 _ (Nat.le_refl _) hk0 hv0
    have hwf1 : ∀ j k v, i + 1 + 1 ≤ j → keys[j]? = some k → values[j]? = some v →
        (c.MVCCDecodeKey k).2.2 = true ∧ ∃ mv, c.Unmarshal v = some mv :=
      fun j k v hj => hwf j k v (by omega)
    have hsplit : ∀ j, i + 1 ≤ j → j = i + 1 ∨ i + 1 + 1 ≤ j := fun j hj => by omega
    unfold filterLoop
    simp only [hiv, Bool.true_eq_false, if_false, hv0, hu]
    by_cases hi0 : i = 0
    · subst hi0
      simp only [if_true]
      obtain ⟨td1, s1, h1, h2, h3, h4⟩ := ih 1 td
        (if mv.Deleted = false then true else s) (by simpa using hr1) hv ht
        (by simpa using hwf1)
      refine ⟨td1, s1, h1, h2, ?_, ?_⟩
      · intro j
        rw [h3 j]
        constructor
        · rintro (h | ⟨hj, hj2, hk⟩)
          · exact Or.inl h
          · exact Or.inr ⟨by omega, hj2, hk⟩
        · rintro (h | ⟨hj, hj2, hk⟩)
          · exact Or.inl h
          · exact Or.inr ⟨by omega, hj2, hk⟩
      · rw [h4]
        constructor
        · rintro (h | ⟨j, k, v, mv1, hj, hrest⟩)
          · by_cases hd : mv.Deleted = false
            · exact Or.inr ⟨1, k0, _, mv, by omega, hk0, hv0, hu, hd, Or.inl rfl⟩
            · simp only [hd, if_false] at h
              exact Or.inl h
          · exact Or.inr ⟨j, k, v, mv1, by omega, hrest⟩
        · rintro (h | ⟨j, k, v, mv1, hj, hk, hvj, huj, hd, hor⟩)
          · left
            by_cases hd : mv.Deleted = false
            · simp [hd]
            · simp only [hd, if_false]; exact h
          · rcases hsplit j hj with hje | hj1
            · subst hje
              rw [hv0] at hvj
              cases hvj
              rw [hu] at huj
              cases huj
              left
              simp [hd]
            · exact Or.inr ⟨j, k, v, mv1, hj1, hk, hvj, huj, hd, hor⟩
    · simp only [hi0, if_false]
      by_cases hl : (c.MVCCDecodeKey k0).2.1.Less e = true
      · simp only [hl, if_true, setIdx_of_lt td (i + 1) true (by omega)]
        obtain ⟨td1, s1, h1, h2, h3, h4⟩ := ih (i + 1) (td.set (i + 1) true) s hr1 hv
          (by simpa using ht) hwf1
        refine ⟨td1, s1, h1, by simpa using h2, ?_, ?_⟩
        · intro j
          rw [h3 j, List.getElem?_set]
          constructor
          · rintro (h | ⟨hj, hj2, hk⟩)
            · by_cases hje : i + 1 = j
              · subst hje
                exact Or.inr ⟨Nat.le_refl _, by omega, k0, hk0, hl⟩
              · simp only [hje, if_false] at h
                exact Or.inl h
            · exact Or.inr ⟨by omega, hj2, hk⟩
          · rintro (h | ⟨hj, hj2, k, hk, hless⟩)
            · left
              by_cases hje : i + 1 = j
              · subst hje
                have : i + 1 < td.length := by omega
                simp [this]
              · simp only [hje, if_false]; exact h
            · rcases hsplit j hj with hje | hj1
              · subst hje
                left
                have : i + 1 < td.length := by omega
                simp [this]
              · exact Or.inr ⟨hj1, hj2, k, hk, hless⟩
        · rw [h4]
          constructor
          · rintro (h | ⟨j, k, v, mv1, hj, hrest⟩)
            · exact Or.inl h
            · exact Or.inr ⟨j, k, v, mv1, by omega, hrest⟩
          · rintro (h | ⟨j, k, v, mv1, hj, hk, hvj, huj, hd, hor⟩)
            · exact Or.inl h
            · rcases hsplit j hj with hje | hj1
              · subst hje
                rw [hk0] at hk
                cases hk
                rcases hor with h1 | h1
                · omega
                · rw [hl] at h1; cases h1
              · exact Or.inr ⟨j, k, v, mv1, hj1, hk, hvj, huj, hd, hor⟩
      · simp only [hl, if_false]
        obtain ⟨td1, s1, h1, h2, h3, h4⟩ := ih (i + 1) td
          (if mv.Deleted = false then true else s) hr1 hv ht hwf1
        have hl1 : (c.MVCCDecodeKey k0).2.1.Less e = false := by
          simpa using hl
        refine ⟨td1, s1, h1, h2, ?_, ?_⟩
        · intro j
          rw [h3 j]
          constructor
          · rintro (h | ⟨hj, hj2, hk⟩)
            · exact Or.inl h
            · exact Or.inr ⟨by omega, hj2, hk⟩
          · rintro (h | ⟨hj, hj2, k, hk, hless⟩)
            · exact Or.inl h
            · rcases hsplit j hj with hje | hj1
              · subst hje
                rw [hk0] at hk
                cases hk
                exact absurd hless hl
              · exact Or.inr ⟨hj1, hj2, k, hk, hless⟩
        · rw [h4]
          constructor
          · rintro (h | ⟨j, k, v, mv1, hj, hrest⟩)
            · by_cases hd : mv.Deleted = false
              · exact Or.inr ⟨i + 1, k0, _, mv, Nat.le_refl _, hk0, hv0, hu, hd, Or.inr hl1⟩
              · simp only [hd, if_false] at h
                exact Or.inl h
            · exact Or.inr ⟨j, k, v, mv1, by omega, hrest⟩
          · rintro (h | ⟨j, k, v, mv1, hj, hk, hvj, huj, hd, hor⟩)
            · left
              by_cases hd : mv.Deleted = false
              · simp [hd]
              · simp only [hd, if_false]; exact h
            · rcases hsplit j hj with hje | hj1
              · subst hje
                rw [hv0] at hvj
                cases hvj
                rw [hu] at huj
                cases huj
                left
                simp [hd]
              · exact Or.inr ⟨j, k, v, mv1, hj1, hk, hvj, huj, hd, hor⟩

/-! ## The branches of `Filter` -/

theorem Filter_singleton (c : Codec) (gc : GarbageCollector) (keys : List EncodedKey)
    (values : List (List Nat)) (h : keys.length = 1) :
    Filter c gc keys values = .ok none := by
  simp [Filter, h]

theorem Filter_version_first (c : Codec) (gc : GarbageCollector) (k0 : EncodedKey)
    (rest : List EncodedKey) (values : List (List Nat)) (hn : rest ≠ [])
    (h0 : (c.MVCCDecodeKey k0).2.2 = true) :
    Filter c gc (k0 :: rest) values =
      .ok (some (List.replicate (k0 :: rest).length false)) := by
  have : rest.length ≠ 0 := fun h => hn (List.length_eq_zero.mp h)
  simp [Filter, this, h0]

theorem Filter_exempt (c : Codec) (gc : GarbageCollector) (k0 : EncodedKey)
    (rest : List EncodedKey) (values : List (List Nat))
    (h0 : (c.MVCCDecodeKey k0).2.2 = false)
    (hp : ∀ p, gc.policyFn (c.MVCCDecodeKey k0).1 = some p → p.TTLSeconds ≤ 0) :
    Filter c gc (k0 :: rest) values = .ok none := by
  unfold Filter
  split
  · rfl
  · simp only [h0, Bool.false_eq_true, if_false]
    cases hq : gc.policyFn (c.MVCCDecodeKey k0).1 with
    | none => rfl
    | some p => simp [hp p hq]

theorem Filter_malformed (c : Codec) (gc : GarbageCollector) (k0 : EncodedKey)
    (rest : List EncodedKey) (values : List (List Nat)) (p : GCPolicy)
    (h0 : (c.MVCCDecodeKey k0).2.2 = false)
    (hp : gc.policyFn (c.MVCCDecodeKey k0).1 = some p) (ht : 0 < p.TTLSeconds)
    (hv : (k0 :: rest).length ≤ values.length)
    (hbad : ∃ j k, 1 ≤ j ∧ (k0 :: rest)[j]? = some k ∧
      ((c.MVCCDecodeKey k).2.2 = false ∨
        ∃ v, values[j]? = some v ∧ c.Unmarshal v = none)) :
    Filter c gc (k0 :: rest) values =
      .ok (some (List.replicate (k0 :: rest).length false)) := by
  have hn : rest.length ≠ 0 := by
    obtain ⟨j, k, hj, hk, _⟩ := hbad
    intro h
    have : (k0 :: rest)[j]? = none := List.getElem?_eq_none (by simp [h]; omega)
    rw [this] at hk
    cases hk
  have hloop := filterLoop_malformed c (expirationOf gc.now p) (k0 :: rest).length
    (k0 :: rest) values rest 0 (List.replicate (k0 :: rest).length false) false
    (by simp) hv (by simp) (by simpa using hbad)
  unfold Filter
  simp only [List.length_cons, Nat.add_left_eq_self, hn, if_false, h0, Bool.false_eq_true, hp,
    not_le.mpr ht]
  simp only [List.length_cons] at hloop
  rw [hloop]

/-- The well-formed, policy-governed branch: the result is allocated, has the
length of the batch, is all-true when no version survives, and otherwise holds
exactly the age marks at indices from 2 on. -/
theorem Filter_wellFormed (c : Codec) (gc : GarbageCollector) (k0 : EncodedKey)
    (rest : List EncodedKey) (values : List (List Nat)) (p : GCPolicy)
    (hn : rest ≠ [])
    (h0 : (c.MVCCDecodeKey k0).2.2 = false)
    (hp : gc.policyFn (c.MVCCDecodeKey k0).1 = some p) (ht : 0 < p.TTLSeconds)
    (hv : (k0 :: rest).length ≤ values.length)
    (hwf : ∀ j k v, 1 ≤ j → (k0 :: rest)[j]? = some k → values[j]? = some v →
      (c.MVCCDecodeKey k).2.2 = true ∧ ∃ mv, c.Unmarshal v = some mv) :
    ∃ l, Filter c gc (k0 :: rest) values = .ok (some l) ∧
      l.length = (k0 :: rest).length ∧
      ((∃ j k v mv, 1 ≤ j ∧ (k0 :: rest)[j]? = some k ∧ values[j]? = some v ∧
          c.Unmarshal v = some mv ∧ mv.Deleted = false ∧
          (j = 1 ∨ (c.MVCCDecodeKey k).2.1.Less (expirationOf gc.now p) = false)) →
        ∀ j, l[j]? = some true ↔
          (2 ≤ j ∧ ∃ k, (k0 :: rest)[j]? = some k ∧
            (c.MVCCDecodeKey k).2.1.Less (expirationOf gc.now p) = true)) ∧
      ((¬ ∃ j k v mv, 1 ≤ j ∧ (k0 :: rest)[j]? = some k ∧ values[j]? = some v ∧
          c.Unmarshal v = some mv ∧ mv.Deleted = false ∧
          (j = 1 ∨ (c.MVCCDecodeKey k).2.1.Less (expirationOf gc.now p) = false)) →
        l = List.replicate (k0 :: rest).length true) := by
  have hlen : rest.length ≠ 0 := fun h => hn (List.length_eq_zero.mp h)
  obtain ⟨td1, s1, h1, h2, h3, h4⟩ := filterLoop_wellFormed c (expirationOf gc.now p)
    (k0 :: rest).length (k0 :: rest) values rest 0
    (List.replicate (k0 :: rest).length false) false (by simp) hv (by simp)
    (by simpa using hwf)
  have hfil : Filter c gc (k0 :: rest) values =
      if s1 = false then
        match markAll (List.range (k0 :: rest).length) td1 with
        | .error e => .error e
        | .ok toDelete1 => .ok (some toDelete1)
      else .ok (some td1) := by
    unfold Filter
    simp only [List.length_cons, Nat.add_left_eq_self, hlen, if_false, h0, Bool.false_eq_true,
      hp, not_le.mpr ht]
    simp only [List.length_cons] at h1
    rw [h1]
  have hzero : ∀ j : Nat, (List.replicate (k0 :: rest).length false)[j]? ≠ some true := by
    intro j h
    rw [List.getElem?_replicate] at h
    split at h <;> cases h
  simp only [Nat.zero_add] at h3 h4
  cases hs : s1 with
  | true =>
    have hsurv := h4.mp hs
    rcases hsurv with hf | hsurv
    · cases hf
    refine ⟨td1, by simp [hfil, hs], by simpa using h2, ?_, ?_⟩
    · intro _ j
      rw [h3 j]
      constructor
      · rintro (h | ⟨_, hj2, hk⟩)
        · exact absurd h (hzero j)
        · exact ⟨hj2, hk⟩
      · rintro ⟨hj2, hk⟩
        exact Or.inr ⟨by omega, hj2, hk⟩
    · intro hno
      exact absurd hsurv hno
  | false =>
    have hm := markAll_range (k0 :: rest).length td1 (by simpa using h2)
    refine ⟨List.replicate (k0 :: rest).length true, ?_, by simp, ?_, ?_⟩
    · rw [hfil, hs]
      simp only [if_true]
      rw [hm]
    · intro hsurv
      have := h4.mpr (Or.inr hsurv)
      rw [hs] at this
      cases this
    · intro _
      rfl

theorem getElem_opt_false_of_ne_true (l : List Bool) (j : Nat) (hj : j < l.length)
    (h : l[j]? ≠ some true) : l[j]? = some false := by
  rw [List.getElem?_eq_getElem hj] at h ⊢
  cases hb : l[j] with
  | false => rfl
  | true => rw [hb] at h; exact absurd rfl h

theorem eq_cons_of_head (keys : List EncodedKey) (k0 : EncodedKey) (h : keys[0]? = some k0) :
    ∃ rest, keys = k0 :: rest := by
  cases keys with
  | nil => cases h
  | cons a rest =>
    simp only [List.getElem?_cons_zero, Option.some.injEq] at h
    exact ⟨rest, by rw [h]⟩

theorem getElem_opt_replicate_of_lt (n j : Nat) (b : Bool) (h : j < n) :
    (List.replicate n b)[j]? = some b := by
  rw [List.getElem?_replicate]
  simp [h]

theorem mem_replicate_false (n : Nat) : ∀ b ∈ List.replicate n false, b = false := by
  intro b hb
  exact (List.mem_replicate.mp hb).2

/-- The policy-governed branch, whatever the versions look like, ends in one of
three shapes: all false, all true, or a slice that keeps indices 0 and 1. -/
theorem Filter_governed (c : Codec) (gc : GarbageCollector) (k0 : EncodedKey)
    (rest : List EncodedKey) (values : List (List Nat)) (p : GCPolicy)
    (hn : rest ≠ [])
    (h0 : (c.MVCCDecodeKey k0).2.2 = false)
    (hp : gc.policyFn (c.MVCCDecodeKey k0).1 = some p) (ht : 0 < p.TTLSeconds)
    (hv : (k0 :: rest).length ≤ values.length) :
    Filter c gc (k0 :: rest) values = .ok (some (List.replicate (k0 :: rest).length false)) ∨
    Filter c gc (k0 :: rest) values = .ok (some (List.replicate (k0 :: rest).length true)) ∨
    ∃ l, Filter c gc (k0 :: rest) values = .ok (some l) ∧ l.length = (k0 :: rest).length ∧
      l[0]? = some false ∧ l[1]? = some false := by
  have hlen : rest.length ≠ 0 := fun h => hn (List.length_eq_zero.mp h)
  by_cases hbad : ∃ j k, 1 ≤ j ∧ (k0 :: rest)[j]? = some k ∧
      ((c.MVCCDecodeKey k).2.2 = false ∨ ∃ v, values[j]? = some v ∧ c.Unmarshal v = none)
  · exact Or.inl (Filter_malformed c gc k0 rest values p h0 hp ht hv hbad)
  · have hwf : ∀ j k v, 1 ≤ j → (k0 :: rest)[j]? = some k → values[j]? = some v →
        (c.MVCCDecodeKey k).2.2 = true ∧ ∃ mv, c.Unmarshal v = some mv := by
      intro j k v hj hk hvj
      constructor
      · by_contra hc
        exact hbad ⟨j, k, hj, hk, Or.inl (by simpa using hc)⟩
      · cases hu : c.Unmarshal v with
        | none => exact absurd ⟨j, k, hj, hk, Or.inr ⟨v, hvj, hu⟩⟩ hbad
        | some mv => exact ⟨mv, rfl⟩
    obtain ⟨l, hl1, hl2, hl3, hl4⟩ := Filter_wellFormed c gc k0 rest values p hn h0 hp ht hv hwf
    by_cases hs : ∃ j k v mv, 1 ≤ j ∧ (k0 :: rest)[j]? = some k ∧ values[j]? = some v ∧
          c.Unmarshal v = some mv ∧ mv.Deleted = false ∧
          (j = 1 ∨ (c.MVCCDecodeKey k).2.1.Less (expirationOf gc.now p) = false)
    · have hl5 := hl3 hs
      have hlen2 : 2 ≤ l.length := by
        rw [hl2]
        simp only [List.length_cons]
        omega
      refine Or.inr (Or.inr ⟨l, hl1, hl2, ?_, ?_⟩)
      · apply getElem_opt_false_of_ne_true l 0 (by omega)
        intro h
        have := ((hl5 0).mp h).1
        omega
      · apply getElem_opt_false_of_ne_true l 1 (by omega)
        intro h
        have := ((hl5 1).mp h).1
        omega
    · refine Or.inr (Or.inl ?_)
      rw [hl1, hl4 hs]

/-! ## The claims -/

/-- C1 (fail-safe on uncertain input): for every collector and every batch
with at least one key and as many values as keys, if entry 0 decodes as a
version key, or some entry at index `i ≥ 1` decodes as a non-version key, or
some value at index `i ≥ 1` fails to unmarshal, then `Filter` returns, and
its result holds no `true` verdict: it is nil or all false. -/
theorem Filter_failsafe_on_malformed (c : Codec) (gc : GarbageCollector)
    (keys : List EncodedKey) (values : List (List Nat))
    (hlen : 1 ≤ keys.length) (hv : values.length = keys.length)
    (hbad : (∃ k0, keys[0]? = some k0 ∧ (c.MVCCDecodeKey k0).2.2 = true) ∨
      (∃ i k, 1 ≤ i ∧ keys[i]? = some k ∧ (c.MVCCDecodeKey k).2.2 = false) ∨
      (∃ i v, 1 ≤ i ∧ i < keys.length ∧ values[i]? = some v ∧ c.Unmarshal v = none)) :
    ∃ r, Filter c gc keys values = .ok r ∧ ∀ l, r = some l → ∀ b ∈ l, b = false := by
  cases keys with
  | nil => simp at hlen
  | cons k0 rest =>
    by_cases hn : rest = []
    · exact ⟨none, Filter_singleton c gc _ values (by simp [hn]), by intro l h; cases h⟩
    by_cases h0 : (c.MVCCDecodeKey k0).2.2 = true
    · refine ⟨_, Filter_version_first c gc k0 rest values hn h0, ?_⟩
      intro l h
      cases h
      exact mem_replicate_false _
    have h0f : (c.MVCCDecodeKey k0).2.2 = false := by simpa using h0
    by_cases hp : ∀ p, gc.policyFn (c.MVCCDecodeKey k0).1 = some p → p.TTLSeconds ≤ 0
    · exact ⟨none, Filter_exempt c gc k0 rest values h0f hp, by intro l h; cases h⟩
    · simp only [not_forall, not_le] at hp
      obtain ⟨p, hp1, hp2⟩ := hp
      refine ⟨_, Filter_malformed c gc k0 rest values p h0f hp1 hp2 (by omega) ?_, ?_⟩
      · rcases hbad with ⟨k, hk, hk1⟩ | ⟨i, k, hi, hk, hk1⟩ | ⟨i, v, hi, hi2, hvi, hu⟩
        · simp only [List.getElem?_cons_zero, Option.some.injEq] at hk
          subst hk
          exact absurd hk1 h0
        · exact ⟨i, k, hi, hk, Or.inl hk1⟩
        · exact ⟨i, (k0 :: rest)[i], hi, List.getElem?_eq_getElem hi2, Or.inr ⟨v, hvi, hu⟩⟩
      · intro l h
        cases h
        exact mem_replicate_false _

/-- Witness for C1: a three-entry batch whose third key decodes as metadata. -/
theorem Filter_failsafe_on_malformed_witness :
    ∃ r, Filter demoCodec demoGC [[0], [1, 190], [0, 50]] [[], [1], [0]] = .ok r ∧
      ∀ l, r = some l → ∀ b ∈ l, b = false :=
  Filter_failsafe_on_malformed demoCodec demoGC [[0], [1, 190], [0, 50]] [[], [1], [0]]
    (by decide) (by decide) (Or.inr (Or.inl ⟨2, [0, 50], by decide, by decide, by decide⟩))

/-- C2 (a survivor protects the metadata and the newest version): for a
well-formed batch of at least two entries whose policy has a positive TTL, if
the newest version (index 1) is not a tombstone, or some version at index
`i ≥ 2` is not a tombstone and is not older than the expiration, then `Filter`
returns a slice of the batch's length whose elements 0 and 1 are both false. -/
theorem Filter_survivor_keeps_meta_and_newest (c : Codec) (gc : GarbageCollector)
    (keys : List EncodedKey) (values : List (List Nat)) (k0 : EncodedKey) (p : GCPolicy)
    (hlen : 2 ≤ keys.length) (hv : values.length = keys.length)
    (hk0 : keys[0]? = some k0) (hmeta : (c.MVCCDecodeKey k0).2.2 = false)
    (hwf : ∀ j k v, 1 ≤ j → keys[j]? = some k → values[j]? = some v →
      (c.MVCCDecodeKey k).2.2 = true ∧ ∃ mv, c.Unmarshal v = some mv)
    (hp : gc.policyFn (c.MVCCDecodeKey k0).1 = some p) (ht : 0 < p.TTLSeconds)
    (hsurv : (∃ v mv, values[1]? = some v ∧ c.Unmarshal v = some mv ∧ mv.Deleted = false) ∨
      (∃ i k v mv, 2 ≤ i ∧ keys[i]? = some k ∧ values[i]? = some v ∧
        c.Unmarshal v = some mv ∧ mv.Deleted = false ∧
        (c.MVCCDecodeKey k).2.1.Less (expirationOf gc.now p) = false)) :
    ∃ l, Filter c gc keys values = .ok (some l) ∧ l.length = keys.length ∧
      l[0]? = some false ∧ l[1]? = some false := by
  obtain ⟨rest, rfl⟩ := eq_cons_of_head keys k0 hk0
  have hn : rest ≠ [] := by
    intro h
    simp [h] at hlen
  obtain ⟨l, hl1, hl2, hl3, _⟩ :=
    Filter_wellFormed c gc k0 rest values p hn hmeta hp ht (by omega) hwf
  have hs : ∃ j k v mv, 1 ≤ j ∧ (k0 :: rest)[j]? = some k ∧ values[j]? = some v ∧
      c.Unmarshal v = some mv ∧ mv.Deleted = false ∧
      (j = 1 ∨ (c.MVCCDecodeKey k).2.1.Less (expirationOf gc.now p) = false) := by
    rcases hsurv with ⟨v, mv, h1, h2, h3⟩ | ⟨i, k, v, mv, hi, h1, h2, h3, h4, h5⟩
    · exact ⟨1, (k0 :: rest)[1], v, mv, Nat.le_refl _, List.getElem?_eq_getElem hlen,
        h1, h2, h3, Or.inl rfl⟩
    · exact ⟨i, k, v, mv, by omega, h1, h2, h3, h4, Or.inr h5⟩
  have hl5 := hl3 hs
  refine ⟨l, hl1, hl2, ?_, ?_⟩
  · apply getElem_opt_false_of_ne_true l 0 (by omega)
    intro h
    have := ((hl5 0).mp h).1
    omega
  · apply getElem_opt_false_of_ne_true l 1 (by omega)
    intro h
    have := ((hl5 1).mp h).1
    omega

/-- Witness for C2: the newest version is live but far older than the
expiration, and the one older version is an expired tombstone. -/
theorem Filter_survivor_keeps_meta_and_newest_witness :
    ∃ l, Filter demoCodec demoGC [[0], [1, 60], [1, 50]] [[], [0], [1]] = .ok (some l) ∧
      l.length = [[0], [1, 60], [1, 50]].length ∧ l[0]? = some false ∧ l[1]? = some false :=
  Filter_survivor_keeps_meta_and_newest demoCodec demoGC [[0], [1, 60], [1, 50]]
    [[], [0], [1]] [0] ⟨100⟩ (by decide) (by decide) (by decide) (by decide)
    (by
      intro j k v hj hk hvj
      rcases j with _ | _ | _ | j
      · omega
      · simp at hk hvj; subst hk; subst hvj; exact ⟨by decide, _, rfl⟩
      · simp at hk hvj; subst hk; subst hvj; exact ⟨by decide, _, rfl⟩
      · simp at hk)
    (by decide) (by decide)
    (Or.inl ⟨[0], ⟨false, []⟩, by decide, by decide, by decide⟩)

/-- C3 (no survivor, the whole key is collected): for a well-formed batch of
at least two entries whose policy has a positive TTL, if the newest version
(index 1) is a tombstone and every version at index `i ≥ 2` is a tombstone or
is older than the expiration, then `Filter` returns the slice of the batch's
length in which every element is true, indices 0 and 1 included. -/
theorem Filter_no_survivor_collects_all (c : Codec) (gc : GarbageCollector)
    (keys : List EncodedKey) (values : List (List Nat)) (k0 : EncodedKey) (p : GCPolicy)
    (hlen : 2 ≤ keys.length) (hv : values.length = keys.length)
    (hk0 : keys[0]? = some k0) (hmeta : (c.MVCCDecodeKey k0).2.2 = false)
    (hwf : ∀ j k v, 1 ≤ j → keys[j]? = some k → values[j]? = some v →
      (c.MVCCDecodeKey k).2.2 = true ∧ ∃ mv, c.Unmarshal v = some mv)
    (hp : gc.policyFn (c.MVCCDecodeKey k0).1 = some p) (ht : 0 < p.TTLSeconds)
    (hnewest : ∀ v mv, values[1]? = some v → c.Unmarshal v = some mv → mv.Deleted = true)
    (holder : ∀ i k v mv, 2 ≤ i → keys[i]? = some k → values[i]? = some v →
      c.Unmarshal v = some mv →
      mv.Deleted = true ∨ (c.MVCCDecodeKey k).2.1.Less (expirationOf gc.now p) = true) :
    Filter c gc keys values = .ok (some (List.replicate keys.length true)) := by
  obtain ⟨rest, rfl⟩ := eq_cons_of_head keys k0 hk0
  have hn : rest ≠ [] := by
    intro h
    simp [h] at hlen
  obtain ⟨l, hl1, _, _, hl4⟩ :=
    Filter_wellFormed c gc k0 rest values p hn hmeta hp ht (by omega) hwf
  have hs : ¬ ∃ j k v mv, 1 ≤ j ∧ (k0 :: rest)[j]? = some k ∧ values[j]? = some v ∧
      c.Unmarshal v = some mv ∧ mv.Deleted = false ∧
      (j = 1 ∨ (c.MVCCDecodeKey k).2.1.Less (expirationOf gc.now p) = false) := by
    rintro ⟨j, k, v, mv, hj, h1, h2, h3, h4, h5⟩
    by_cases hj1 : j = 1
    · subst hj1
      have := hnewest v mv h2 h3
      rw [h4] at this
      cases this
    · rcases holder j k v mv (by omega) h1 h2 h3 with h | h
      · rw [h4] at h
        cases h
      · rcases h5 with h5 | h5
        · exact hj1 h5
        · rw [h5] at h
          cases h
  rw [hl1, hl4 hs]

/-- Witness for C3: the batch `[meta, tombstone]` yields `[true, true]`, although
the tombstone is not expired. -/
theorem Filter_no_survivor_collects_all_witness :
    Filter demoCodec demoGC [[0], [1, 190]] [[], [1]] = .ok (some [true, true]) :=
  Filter_no_survivor_collects_all demoCodec demoGC [[0], [1, 190]] [[], [1]] [0] ⟨100⟩
    (by decide) (by decide) (by decide) (by decide)
    (by
      intro j k v hj hk hvj
      rcases j with _ | _ | j
      · omega
      · simp at hk hvj; subst hk; subst hvj; exact ⟨by decide, _, rfl⟩
      · simp at hk)
    (by decide) (by decide)
    (by
      intro v mv h1 h2
      simp at h1
      subst h1
      cases h2
      rfl)
    (by
      intro i k v mv hi hk
      have : ([[0], [1, 190]] : List EncodedKey)[i]? = none :=
        List.getElem?_eq_none (by simpa using hi)
      rw [this] at hk
      cases hk)

/-- C4 (age rule for the versions after the newest): for a well-formed batch
whose policy has a positive TTL, every version at an index `i ≥ 2` whose
timestamp is older than the expiration has the verdict `true`, whether or not
it is a tombstone and whatever the other entries are. -/
theorem Filter_marks_expired_older_versions (c : Codec) (gc : GarbageCollector)
    (keys : List EncodedKey) (values : List (List Nat)) (k0 : EncodedKey) (p : GCPolicy)
    (i : Nat) (k : EncodedKey)
    (hv : values.length = keys.length)
    (hk0 : keys[0]? = some k0) (hmeta : (c.MVCCDecodeKey k0).2.2 = false)
    (hwf : ∀ j k v, 1 ≤ j → keys[j]? = some k → values[j]? = some v →
      (c.MVCCDecodeKey k).2.2 = true ∧ ∃ mv, c.Unmarshal v = some mv)
    (hp : gc.policyFn (c.MVCCDecodeKey k0).1 = some p) (ht : 0 < p.TTLSeconds)
    (hi : 2 ≤ i) (hk : keys[i]? = some k)
    (hold : (c.MVCCDecodeKey k).2.1.Less (expirationOf gc.now p) = true) :
    ∃ l, Filter c gc keys values = .ok (some l) ∧ l.length = keys.length ∧
      l[i]? = some true := by
  obtain ⟨rest, rfl⟩ := eq_cons_of_head keys k0 hk0
  have hik : i < (k0 :: rest).length := by
    by_contra hc
    have : (k0 :: rest)[i]? = none := List.getElem?_eq_none (by omega)
    rw [this] at hk
    cases hk
  have hn : rest ≠ [] := by
    intro h
    simp [h] at hik
    omega
  obtain ⟨l, hl1, hl2, hl3, hl4⟩ :=
    Filter_wellFormed c gc k0 rest values p hn hmeta hp ht (by omega) hwf
  refine ⟨l, hl1, hl2, ?_⟩
  by_cases hs : ∃ j k v mv, 1 ≤ j ∧ (k0 :: rest)[j]? = some k ∧ values[j]? = some v ∧
      c.Unmarshal v = some mv ∧ mv.Deleted = false ∧
      (j = 1 ∨ (c.MVCCDecodeKey k).2.1.Less (expirationOf gc.now p) = false)
  · exact (hl3 hs i).mpr ⟨hi, k, hk, hold⟩
  · rw [hl4 hs]
    exact getElem_opt_replicate_of_lt _ _ _ hik

/-- Witness for C4: a live newest version, then an expired live version and an
unexpired one. -/
theorem Filter_marks_expired_older_versions_witness :
    ∃ l, Filter demoCodec demoGC [[0], [1, 190], [1, 50], [1, 150]] [[], [0], [0], [0]]
        = .ok (some l) ∧
      l.length = [[0], [1, 190], [1, 50], [1, 150]].length ∧ l[2]? = some true :=
  Filter_marks_expired_older_versions demoCodec demoGC [[0], [1, 190], [1, 50], [1, 150]]
    [[], [0], [0], [0]] [0] ⟨100⟩ 2 [1, 50] (by decide) (by decide) (by decide)
    (by
      intro j k v hj hk hvj
      rcases j with _ | _ | _ | _ | j
      · omega
      · simp at hk hvj; subst hk; subst hvj; exact ⟨by decide, _, rfl⟩
      · simp at hk hvj; subst hk; subst hvj; exact ⟨by decide, _, rfl⟩
      · simp at hk hvj; subst hk; subst hvj; exact ⟨by decide, _, rfl⟩
      · simp at hk)
    (by decide) (by decide) (by decide) (by decide) (by decide)

/-- C5 (metadata and newest version go only with everything else): for every
collector and every batch with at least one key and as many values as keys,
`Filter` returns, and if its result has a `true` verdict at index 0 or at
index 1 then the result is the all-true slice of the batch's length; in every
non-nil result the verdicts at indices 0 and 1 are equal. -/
theorem Filter_meta_newest_only_with_all (c : Codec) (gc : GarbageCollector)
    (keys : List EncodedKey) (values : List (List Nat))
    (hlen : 1 ≤ keys.length) (hv : values.length = keys.length) :
    ∃ r, Filter c gc keys values = .ok r ∧
      ∀ l, r = some l →
        ((l[0]? = some true ∨ l[1]? = some true) →
          l.length = keys.length ∧ l = List.replicate keys.length true) ∧
        l[0]? = l[1]? := by
  cases keys with
  | nil => simp at hlen
  | cons k0 rest =>
    by_cases hn : rest = []
    · exact ⟨none, Filter_singleton c gc _ values (by simp [hn]), by intro l h; cases h⟩
    have hr : rest.length ≠ 0 := fun h => hn (List.length_eq_zero.mp h)
    have h2 : 2 ≤ (k0 :: rest).length := by
      simp only [List.length_cons]
      omega
    have hzero : ∀ j : Nat, j < (k0 :: rest).length →
        (List.replicate (k0 :: rest).length false)[j]? = some false := by
      intro j hj
      exact getElem_opt_replicate_of_lt _ _ _ hj
    have hone : ∀ j : Nat, j < (k0 :: rest).length →
        (List.replicate (k0 :: rest).length true)[j]? = some true := by
      intro j hj
      exact getElem_opt_replicate_of_lt _ _ _ hj
    have hfalse : ∀ l, some (List.replicate (k0 :: rest).length false) = some l →
        ((l[0]? = some true ∨ l[1]? = some true) →
          l.length = (k0 :: rest).length ∧ l = List.replicate (k0 :: rest).length true) ∧
        l[0]? = l[1]? := by
      intro l h
      cases h
      rw [hzero 0 (by omega), hzero 1 (by omega)]
      simp
    by_cases h0 : (c.MVCCDecodeKey k0).2.2 = true
    · exact ⟨_, Filter_version_first c gc k0 rest values hn h0, hfalse⟩
    have h0f : (c.MVCCDecodeKey k0).2.2 = false := by simpa using h0
    by_cases hp : ∀ p, gc.policyFn (c.MVCCDecodeKey k0).1 = some p → p.TTLSeconds ≤ 0
    · exact ⟨none, Filter_exempt c gc k0 rest values h0f hp, by intro l h; cases h⟩
    simp only [not_forall, not_le] at hp
    obtain ⟨p, hp1, hp2⟩ := hp
    rcases Filter_governed c gc k0 rest values p hn h0f hp1 hp2 (by omega) with
      h | h | ⟨l, hl1, hl2, hl3, hl4⟩
    · exact ⟨_, h, hfalse⟩
    · refine ⟨_, h, ?_⟩
      intro l hl
      cases hl
      rw [hone 0 (by omega), hone 1 (by omega)]
      simp
    · refine ⟨_, hl1, ?_⟩
      intro l1 h
      cases h
      rw [hl3, hl4]
      simp

/-- Witness for C5: a batch with a tombstone as newest version and an expired
older version, whose result is true at index 0. -/
theorem Filter_meta_newest_only_with_all_witness :
    ∃ r, Filter demoCodec demoGC [[0], [1, 190], [1, 50]] [[], [1], [0]] = .ok r ∧
      ∀ l, r = some l →
        ((l[0]? = some true ∨ l[1]? = some true) →
          l.length = [[0], [1, 190], [1, 50]].length ∧
            l = List.replicate [[0], [1, 190], [1, 50]].length true) ∧
        l[0]? = l[1]? :=
  Filter_meta_newest_only_with_all demoCodec demoGC [[0], [1, 190], [1, 50]] [[], [1], [0]]
    (by decide) (by decide)

/-- C6 (policy exemption): for every batch of at least one key, whatever its
values, tombstones, timestamps or malformed later entries, if the policy
lookup on the decoded key of entry 0 gives nil or a policy with
`TTLSeconds ≤ 0`, then `Filter` returns a result without any `true` verdict,
and that result is nil whenever entry 0 decodes as a metadata key. -/
theorem Filter_policy_exemption (c : Codec) (gc : GarbageCollector)
    (keys : List EncodedKey) (values : List (List Nat)) (k0 : EncodedKey)
    (hk0 : keys[0]? = some k0)
    (hp : gc.policyFn (c.MVCCDecodeKey k0).1 = none ∨
      ∃ p, gc.policyFn (c.MVCCDecodeKey k0).1 = some p ∧ p.TTLSeconds ≤ 0) :
    ∃ r, Filter c gc keys values = .ok r ∧
      (∀ l, r = some l → ∀ b ∈ l, b = false) ∧
      ((c.MVCCDecodeKey k0).2.2 = false → r = none) := by
  obtain ⟨rest, rfl⟩ := eq_cons_of_head keys k0 hk0
  have hp1 : ∀ p, gc.policyFn (c.MVCCDecodeKey k0).1 = some p → p.TTLSeconds ≤ 0 := by
    intro p hq
    rcases hp with h | ⟨q, h1, h2⟩
    · rw [h] at hq
      cases hq
    · rw [h1] at hq
      cases hq
      exact h2
  by_cases hn : rest = []
  · exact ⟨none, Filter_singleton c gc _ values (by simp [hn]), (by intro l h; cases h),
      fun _ => rfl⟩
  by_cases h0 : (c.MVCCDecodeKey k0).2.2 = true
  · refine ⟨_, Filter_version_first c gc k0 rest values hn h0, ?_, ?_⟩
    · intro l h
      cases h
      exact mem_replicate_false _
    · intro h
      rw [h0] at h
      cases h
  · have h0f : (c.MVCCDecodeKey k0).2.2 = false := by simpa using h0
    exact ⟨none, Filter_exempt c gc k0 rest values h0f hp1, (by intro l h; cases h),
      fun _ => rfl⟩

/-- Witness for C6: no policy, a tombstone as newest version, an expired older
version and a value that does not unmarshal. -/
theorem Filter_policy_exemption_witness :
    ∃ r, Filter demoCodec demoGCNoPolicy [[0], [1, 190], [1, 50], [1, 40]] [[], [1], [0], []]
        = .ok r ∧
      (∀ l, r = some l → ∀ b ∈ l, b = false) ∧
      ((demoCodec.MVCCDecodeKey [0]).2.2 = false → r = none) :=
  Filter_policy_exemption demoCodec demoGCNoPolicy [[0], [1, 190], [1, 50], [1, 40]]
    [[], [1], [0], []] [0] (by decide) (Or.inl (by decide))

/-- C7 (singleton batch): for every collector, every key decoder and value
decoder, every policy lookup, every single key and every list of values,
`Filter` on the one-key batch returns nil, and it does so without a call:
the record of its calls to `MVCCDecodeKey`, `policyFn` and `Unmarshal` is
empty, so the key is not decoded and the policy lookup is not consulted. -/
theorem Filter_singleton_returns_nil (c : Codec) (gc : GarbageCollector)
    (key : EncodedKey) (values : List (List Nat)) :
    Filter c gc [key] values = .ok none ∧
      FilterCalls c gc [key] values = (.ok none, []) :=
  ⟨Filter_singleton c gc [key] values rfl, by simp [FilterCalls]⟩

/-- C8 (malformed entry 0): for every batch of at least two entries whose
entry 0 decodes as a version key, `Filter` returns the all-false slice of the
batch's length, whatever the policy, the values and the other entries. -/
theorem Filter_version_at_index_zero (c : Codec) (gc : GarbageCollector)
    (keys : List EncodedKey) (values : List (List Nat)) (k0 : EncodedKey)
    (hlen : 2 ≤ keys.length) (hk0 : keys[0]? = some k0)
    (h0 : (c.MVCCDecodeKey k0).2.2 = true) :
    Filter c gc keys values = .ok (some (List.replicate keys.length false)) := by
  obtain ⟨rest, rfl⟩ := eq_cons_of_head keys k0 hk0
  have hn : rest ≠ [] := by
    intro h
    simp [h] at hlen
  exact Filter_version_first c gc k0 rest values hn h0

/-- Witness for C8: entry 0 is a version key; the other entries would all be
collected in a well-formed batch. -/
theorem Filter_version_at_index_zero_witness :
    Filter demoCodec demoGC [[1, 60], [1, 50], [1, 40]] [[1], [1], [1]]
      = .ok (some [false, false, false]) :=
  Filter_version_at_index_zero demoCodec demoGC [[1, 60], [1, 50], [1, 40]] [[1], [1], [1]]
    [1, 60] (by decide) (by decide) (by decide)

/-- C9 (a malformed later entry discards the whole batch): for every batch
with as many values as keys whose entry 0 decodes as metadata and whose policy
has a positive TTL, if some entry at index `i ≥ 1` decodes as a non-version
key or its value fails to unmarshal, `Filter` returns the all-false slice of
the batch's length, also when earlier entries were older than the expiration. -/
theorem Filter_malformed_later_entry (c : Codec) (gc : GarbageCollector)
    (keys : List EncodedKey) (values : List (List Nat)) (k0 : EncodedKey) (p : GCPolicy)
    (hv : values.length = keys.length)
    (hk0 : keys[0]? = some k0) (hmeta : (c.MVCCDecodeKey k0).2.2 = false)
    (hp : gc.policyFn (c.MVCCDecodeKey k0).1 = some p) (ht : 0 < p.TTLSeconds)
    (hbad : ∃ i k, 1 ≤ i ∧ keys[i]? = some k ∧
      ((c.MVCCDecodeKey k).2.2 = false ∨
        ∃ v, values[i]? = some v ∧ c.Unmarshal v = none)) :
    Filter c gc keys values = .ok (some (List.replicate keys.length false)) := by
  obtain ⟨rest, rfl⟩ := eq_cons_of_head keys k0 hk0
  exact Filter_malformed c gc k0 rest values p hmeta hp ht (by omega) hbad

/-- Witness for C9: a tombstone as newest version, an expired version at
index 2, and a value at index 3 that does not unmarshal. -/
theorem Filter_malformed_later_entry_witness :
    Filter demoCodec demoGC [[0], [1, 190], [1, 50], [1, 40]] [[], [1], [0], []]
      = .ok (some [false, false, false, false]) :=
  Filter_malformed_later_entry demoCodec demoGC [[0], [1, 190], [1, 50], [1, 40]]
    [[], [1], [0], []] [0] ⟨100⟩ (by decide) (by decide) (by decide) (by decide) (by decide)
    ⟨3, [1, 40], by decide, by decide, Or.inr ⟨[], by decide, by decide⟩⟩

/-- C10 (output shape): for every collector and every batch with at least one
key and as many values as keys, `Filter` returns a result that is nil or a
slice of exactly the batch's length, and it is nil exactly when the batch has
one key, or entry 0 decodes as metadata and the policy found for it is nil or
has `TTLSeconds ≤ 0`. -/
theorem Filter_output_shape (c : Codec) (gc : GarbageCollector)
    (keys : List EncodedKey) (values : List (List Nat)) (k0 : EncodedKey)
    (hlen : 1 ≤ keys.length) (hv : values.length = keys.length)
    (hk0 : keys[0]? = some k0) :
    ∃ r, Filter c gc keys values = .ok r ∧
      (∀ l, r = some l → l.length = keys.length) ∧
      (r = none ↔
        (keys.length = 1 ∨
          ((c.MVCCDecodeKey k0).2.2 = false ∧
            (gc.policyFn (c.MVCCDecodeKey k0).1 = none ∨
              ∃ p, gc.policyFn (c.MVCCDecodeKey k0).1 = some p ∧ p.TTLSeconds ≤ 0)))) := by
  obtain ⟨rest, rfl⟩ := eq_cons_of_head keys k0 hk0
  by_cases hn : rest = []
  · refine ⟨none, Filter_singleton c gc _ values (by simp [hn]), (by intro l h; cases h), ?_⟩
    simp [hn]
  have hr : rest.length ≠ 0 := fun h => hn (List.length_eq_zero.mp h)
  have hne : ¬ (k0 :: rest).length = 1 := by
    simp only [List.length_cons]
    omega
  by_cases h0 : (c.MVCCDecodeKey k0).2.2 = true
  · refine ⟨_, Filter_version_first c gc k0 rest values hn h0, ?_, ?_⟩
    · intro l h
      cases h
      simp
    · constructor
      · intro h
        cases h
      · rintro (h | ⟨h, _⟩)
        · exact absurd h hne
        · rw [h0] at h
          cases h
  have h0f : (c.MVCCDecodeKey k0).2.2 = false := by simpa using h0
  by_cases hp : ∀ p, gc.policyFn (c.MVCCDecodeKey k0).1 = some p → p.TTLSeconds ≤ 0
  · refine ⟨none, Filter_exempt c gc k0 rest values h0f hp, (by intro l h; cases h), ?_⟩
    constructor
    · intro _
      refine Or.inr ⟨h0f, ?_⟩
      cases hq : gc.policyFn (c.MVCCDecodeKey k0).1 with
      | none => exact Or.inl rfl
      | some q => exact Or.inr ⟨q, rfl, hp q hq⟩
    · intro _
      rfl
  simp only [not_forall, not_le] at hp
  obtain ⟨p, hp1, hp2⟩ := hp
  have hnot : ¬ ((k0 :: rest).length = 1 ∨
      ((c.MVCCDecodeKey k0).2.2 = false ∧
        (gc.policyFn (c.MVCCDecodeKey k0).1 = none ∨
          ∃ q, gc.policyFn (c.MVCCDecodeKey k0).1 = some q ∧ q.TTLSeconds ≤ 0))) := by
    rintro (h | ⟨_, h | ⟨q, hq1, hq2⟩⟩)
    · exact hne h
    · rw [hp1] at h
      cases h
    · rw [hp1] at hq1
      cases hq1
      omega
  rcases Filter_governed c gc k0 rest values p hn h0f hp1 hp2 (by omega) with
    h | h | ⟨l, hl1, hl2, _, _⟩
  · refine ⟨_, h, ?_, ?_⟩
    · intro l hl
      cases hl
      simp
    · constructor
      · intro hc
        cases hc
      · intro hc
        exact absurd hc hnot
  · refine ⟨_, h, ?_, ?_⟩
    · intro l hl
      cases hl
      simp
    · constructor
      · intro hc
        cases hc
      · intro hc
        exact absurd hc hnot
  · refine ⟨_, hl1, ?_, ?_⟩
    · intro l1 h
      cases h
      exact hl2
    · constructor
      · intro hc
        cases hc
      · intro hc
        exact absurd hc hnot

/-- Witness for C10: a governed three-entry batch, whose result is a slice of
length three. -/
theorem Filter_output_shape_witness :
    ∃ r, Filter demoCodec demoGC [[0], [1, 190], [1, 50]] [[], [0], [0]] = .ok r ∧
      (∀ l, r = some l → l.length = [[0], [1, 190], [1, 50]].length) ∧
      (r = none ↔
        ([[0], [1, 190], [1, 50]].length = 1 ∨
          ((demoCodec.MVCCDecodeKey [0]).2.2 = false ∧
            (demoGC.policyFn (demoCodec.MVCCDecodeKey [0]).1 = none ∨
              ∃ p, demoGC.policyFn (demoCodec.MVCCDecodeKey [0]).1 = some p ∧
                p.TTLSeconds ≤ 0)))) :=
  Filter_output_shape demoCodec demoGC [[0], [1, 190], [1, 50]] [[], [0], [0]] [0]
    (by decide) (by decide) (by decide)

/-! ## Expiration arithmetic -/

theorem wrapInt64_of_range (x : Int) (h1 : -9223372036854775808 ≤ x)
    (h2 : x < 9223372036854775808) : wrapInt64 x = x := by
  unfold wrapInt64
  have h : (x + 9223372036854775808) % 18446744073709551616 = x + 9223372036854775808 :=
    Int.emod_eq_of_lt (by omega) (by omega)
  omega

theorem expirationOf_exact (now : Timestamp) (p : GCPolicy)
    (hp1 : -2147483648 ≤ p.TTLSeconds) (hp2 : p.TTLSeconds < 2147483648)
    (h1 : -9223372036854775808 ≤ now.WallTime - p.TTLSeconds * 1000000000)
    (h2 : now.WallTime - p.TTLSeconds * 1000000000 < 9223372036854775808) :
    expirationOf now p =
      ⟨now.WallTime - p.TTLSeconds * 1000000000, now.Logical⟩ := by
  unfold expirationOf
  rw [wrapInt64_of_range (p.TTLSeconds * 1000000000) (by omega) (by omega),
    wrapInt64_of_range _ h1 h2]

theorem Less_iff (t s : Timestamp) :
    t.Less s = true ↔
      (t.WallTime < s.WallTime ∨ (t.WallTime = s.WallTime ∧ t.Logical < s.Logical)) := by
  simp [Timestamp.Less]

theorem Less_trans (a b d : Timestamp) (h1 : a.Less b = true) (h2 : b.Less d = true) :
    a.Less d = true := by
  rw [Less_iff] at h1 h2 ⊢
  omega

/-- C19 (the expiration arithmetic does not overflow for realistic clocks): for
every reference timestamp with `0 ≤ now.WallTime` (an `int64`) and every
positive `TTLSeconds` that fits in a signed 32-bit integer, the product
`int64(TTLSeconds) * 1E9` does not wrap, the expiration's wall time is the
exact integer `now.WallTime - TTLSeconds * 10^9`, and it is smaller than
`now.WallTime`. -/
theorem expiration_no_overflow (now : Timestamp) (p : GCPolicy)
    (hnow0 : 0 ≤ now.WallTime) (hnow1 : now.WallTime < 9223372036854775808)
    (ht0 : 0 < p.TTLSeconds) (ht1 : p.TTLSeconds < 2147483648) :
    wrapInt64 (p.TTLSeconds * 1000000000) = p.TTLSeconds * 1000000000 ∧
      (expirationOf now p).WallTime = now.WallTime - p.TTLSeconds * 1000000000 ∧
      (expirationOf now p).WallTime < now.WallTime := by
  have h := expirationOf_exact now p (by omega) ht1 (by omega) (by omega)
  refine ⟨wrapInt64_of_range _ (by omega) (by omega), ?_, ?_⟩
  · rw [h]
  · rw [h]
    show now.WallTime - p.TTLSeconds * 1000000000 < now.WallTime
    omega

/-- Witness for C19: the largest 32-bit TTL at `now = 0`. -/
theorem expiration_no_overflow_witness :
    wrapInt64 ((⟨2147483647⟩ : GCPolicy).TTLSeconds * 1000000000) =
        (⟨2147483647⟩ : GCPolicy).TTLSeconds * 1000000000 ∧
      (expirationOf ⟨0, 0⟩ ⟨2147483647⟩).WallTime =
        (⟨0, 0⟩ : Timestamp).WallTime - (⟨2147483647⟩ : GCPolicy).TTLSeconds * 1000000000 ∧
      (expirationOf ⟨0, 0⟩ ⟨2147483647⟩).WallTime < (⟨0, 0⟩ : Timestamp).WallTime :=
  expiration_no_overflow ⟨0, 0⟩ ⟨2147483647⟩ (by decide) (by decide) (by decide) (by decide)

/-- C14 (no out-of-range access on an admissible batch): for every collector
and every batch with at least one key and at least as many values as keys,
malformed keys and undecodable values included, no slice index of `Filter`
fails, so `Filter` returns a result; on the empty batch the access `keys[0]`
is out of range. -/
theorem Filter_no_index_out_of_range (c : Codec) (gc : GarbageCollector)
    (keys : List EncodedKey) (values : List (List Nat))
    (hlen : 1 ≤ keys.length) (hv : keys.length ≤ values.length) :
    (∃ r, Filter c gc keys values = .ok r) ∧
      Filter c gc [] values = .error .indexOutOfRange := by
  refine ⟨?_, rfl⟩
  cases keys with
  | nil => simp at hlen
  | cons k0 rest =>
    by_cases hn : rest = []
    · exact ⟨none, Filter_singleton c gc _ values (by simp [hn])⟩
    by_cases h0 : (c.MVCCDecodeKey k0).2.2 = true
    · exact ⟨_, Filter_version_first c gc k0 rest values hn h0⟩
    have h0f : (c.MVCCDecodeKey k0).2.2 = false := by simpa using h0
    by_cases hp : ∀ p, gc.policyFn (c.MVCCDecodeKey k0).1 = some p → p.TTLSeconds ≤ 0
    · exact ⟨none, Filter_exempt c gc k0 rest values h0f hp⟩
    simp only [not_forall, not_le] at hp
    obtain ⟨p, hp1, hp2⟩ := hp
    rcases Filter_governed c gc k0 rest values p hn h0f hp1 hp2 hv with
      h | h | ⟨l, hl1, _⟩
    · exact ⟨_, h⟩
    · exact ⟨_, h⟩
    · exact ⟨_, hl1⟩

/-- Witness for C14: more values than keys, a key at index 2 that decodes as
metadata and a value that does not unmarshal. -/
theorem Filter_no_index_out_of_range_witness :
    (∃ r, Filter demoCodec demoGC [[0], [1, 190], [0, 50]] [[], [], [0], [1]] = .ok r) ∧
      Filter demoCodec demoGC [] [[], [], [0], [1]] = .error .indexOutOfRange :=
  Filter_no_index_out_of_range demoCodec demoGC [[0], [1, 190], [0, 50]] [[], [], [0], [1]]
    (by decide) (by decide)

/-- C13 (prefix extractor): `MVCCPrefix key` is `len(key)` minus the length of
what the binary-key decoder leaves unconsumed.  Hence, for a decoder that
returns a suffix of its input and, on an encoded logical key followed by any
suffix `s`, leaves exactly `s`: a metadata key gets its full length, a version
key gets its length minus the length of its timestamp suffix, the prefix length
lies between 0 and `len(key)`, and a metadata key and all version keys of one
logical key get the same prefix length. -/
theorem MVCCPrefix_spec (DecodeBinary : List Nat → List Nat × List Nat)
    (encode : Key → List Nat) (gc : GarbageCollector)
    (hsuffix : ∀ key, (DecodeBinary key).1 <:+ key)
    (hexact : ∀ lk s, (DecodeBinary (encode lk ++ s)).1 = s) :
    (∀ key, MVCCPrefix DecodeBinary gc key =
      (key.length : Int) - ((DecodeBinary key).1.length : Int)) ∧
    (∀ lk, MVCCPrefix DecodeBinary gc (encode lk) = ((encode lk).length : Int)) ∧
    (∀ lk s, MVCCPrefix DecodeBinary gc (encode lk ++ s) =
      ((encode lk ++ s).length : Int) - (s.length : Int)) ∧
    (∀ key, 0 ≤ MVCCPrefix DecodeBinary gc key ∧
      MVCCPrefix DecodeBinary gc key ≤ (key.length : Int)) ∧
    (∀ lk s, MVCCPrefix DecodeBinary gc (encode lk ++ s) =
      MVCCPrefix DecodeBinary gc (encode lk)) := by
  have hver : ∀ lk s, MVCCPrefix DecodeBinary gc (encode lk ++ s) =
      ((encode lk ++ s).length : Int) - (s.length : Int) := by
    intro lk s
    unfold MVCCPrefix
    rw [hexact lk s]
  have hmeta : ∀ lk, MVCCPrefix DecodeBinary gc (encode lk) = ((encode lk).length : Int) := by
    intro lk
    have := hver lk []
    simpa using this
  refine ⟨fun _ => rfl, hmeta, hver, ?_, ?_⟩
  · intro key
    have h := (hsuffix key).length_le
    unfold MVCCPrefix
    omega
  · intro lk s
    rw [hver lk s, hmeta lk]
    simp

/-- Witness for C13: the length-prefixed encoding and its decoder. -/
theorem MVCCPrefix_spec_witness :
    (∀ key, MVCCPrefix demoDecodeBinary demoGC key =
      (key.length : Int) - ((demoDecodeBinary key).1.length : Int)) ∧
    (∀ lk, MVCCPrefix demoDecodeBinary demoGC (demoEncodeBinary lk) =
      ((demoEncodeBinary lk).length : Int)) ∧
    (∀ lk s, MVCCPrefix demoDecodeBinary demoGC (demoEncodeBinary lk ++ s) =
      ((demoEncodeBinary lk ++ s).length : Int) - (s.length : Int)) ∧
    (∀ key, 0 ≤ MVCCPrefix demoDecodeBinary demoGC key ∧
      MVCCPrefix demoDecodeBinary demoGC key ≤ (key.length : Int)) ∧
    (∀ lk s, MVCCPrefix demoDecodeBinary demoGC (demoEncodeBinary lk ++ s) =
      MVCCPrefix demoDecodeBinary demoGC (demoEncodeBinary lk)) :=
  MVCCPrefix_spec demoDecodeBinary demoEncodeBinary demoGC
    (by
      intro key
      cases key with
      | nil => exact List.suffix_refl _
      | cons n rest =>
        exact (List.drop_suffix n rest).trans (List.suffix_cons n rest))
    (by
      intro lk s
      simp [demoEncodeBinary, demoDecodeBinary])

/-! ## Relations between results -/

theorem bool_list_ext (l1 l2 : List Bool) (hlen : l1.length = l2.length)
    (h : ∀ j : Nat, l1[j]? = some true ↔ l2[j]? = some true) : l1 = l2 := by
  apply List.ext_getElem?
  intro j
  by_cases hj : j < l1.length
  · have hj2 : j < l2.length := by omega
    by_cases ht : l1[j]? = some true
    · rw [ht, (h j).mp ht]
    · have ht2 : l2[j]? ≠ some true := fun e => ht ((h j).mpr e)
      rw [getElem_opt_false_of_ne_true l1 j hj ht, getElem_opt_false_of_ne_true l2 j hj2 ht2]
  · rw [List.getElem?_eq_none (by omega), List.getElem?_eq_none (by omega)]

theorem lt_length_of_getElem_opt {α : Type} (l : List α) (j : Nat) (a : α)
    (h : l[j]? = some a) : j < l.length := by
  by_contra hc
  rw [List.getElem?_eq_none (by omega)] at h
  cases h

/-- C18 (under the batch invariant the age-deleted versions form a suffix):
for a well-formed batch whose policy has a positive TTL and whose version
timestamps are strictly decreasing in index order, if the result of `Filter`
marks an index `i ≥ 2` as true then it marks every later index of the batch as
true. -/
theorem Filter_deleted_versions_form_suffix (c : Codec) (gc : GarbageCollector)
    (keys : List EncodedKey) (values : List (List Nat)) (k0 : EncodedKey) (p : GCPolicy)
    (hlen : 2 ≤ keys.length) (hv : values.length = keys.length)
    (hk0 : keys[0]? = some k0) (hmeta : (c.MVCCDecodeKey k0).2.2 = false)
    (hwf : ∀ j k v, 1 ≤ j → keys[j]? = some k → values[j]? = some v →
      (c.MVCCDecodeKey k).2.2 = true ∧ ∃ mv, c.Unmarshal v = some mv)
    (hp : gc.policyFn (c.MVCCDecodeKey k0).1 = some p) (ht : 0 < p.TTLSeconds)
    (hdesc : ∀ a b ka kb, 1 ≤ a → a < b → keys[a]? = some ka → keys[b]? = some kb →
      (c.MVCCDecodeKey kb).2.1.Less (c.MVCCDecodeKey ka).2.1 = true) :
    ∃ l, Filter c gc keys values = .ok (some l) ∧ l.length = keys.length ∧
      ∀ i j, 2 ≤ i → i < j → j < keys.length → l[i]? = some true → l[j]? = some true := by
  obtain ⟨rest, rfl⟩ := eq_cons_of_head keys k0 hk0
  have hn : rest ≠ [] := by
    intro h
    simp [h] at hlen
  obtain ⟨l, hl1, hl2, hl3, hl4⟩ :=
    Filter_wellFormed c gc k0 rest values p hn hmeta hp ht (by omega) hwf
  refine ⟨l, hl1, hl2, ?_⟩
  intro i j hi hij hj hti
  by_cases hs : ∃ j k v mv, 1 ≤ j ∧ (k0 :: rest)[j]? = some k ∧ values[j]? = some v ∧
      c.Unmarshal v = some mv ∧ mv.Deleted = false ∧
      (j = 1 ∨ (c.MVCCDecodeKey k).2.1.Less (expirationOf gc.now p) = false)
  · obtain ⟨_, ki, hki, hless⟩ := (hl3 hs i).mp hti
    have hkj : (k0 :: rest)[j]? = some (k0 :: rest)[j] := List.getElem?_eq_getElem hj
    refine (hl3 hs j).mpr ⟨by omega, _, hkj, ?_⟩
    exact Less_trans _ _ _ (hdesc i j ki _ (by omega) hij hki hkj) hless
  · rw [hl4 hs]
    exact getElem_opt_replicate_of_lt _ _ _ hj

/-- Witness for C18: a live newest version, an unexpired version and two
expired ones, in decreasing time order. -/
theorem Filter_deleted_versions_form_suffix_witness :
    ∃ l, Filter demoCodec demoGC [[0], [1, 190], [1, 150], [1, 50], [1, 40]]
        [[], [0], [0], [0], [1]] = .ok (some l) ∧
      l.length = [[0], [1, 190], [1, 150], [1, 50], [1, 40]].length ∧
      ∀ i j, 2 ≤ i → i < j → j < [[0], [1, 190], [1, 150], [1, 50], [1, 40]].length →
        l[i]? = some true → l[j]? = some true :=
  Filter_deleted_versions_form_suffix demoCodec demoGC
    [[0], [1, 190], [1, 150], [1, 50], [1, 40]] [[], [0], [0], [0], [1]] [0] ⟨100⟩
    (by decide) (by decide) (by decide) (by decide)
    (by
      intro j k v hj hk hvj
      rcases j with _ | _ | _ | _ | _ | j
      · omega
      · simp at hk hvj; subst hk; subst hvj; exact ⟨by decide, _, rfl⟩
      · simp at hk hvj; subst hk; subst hvj; exact ⟨by decide, _, rfl⟩
      · simp at hk hvj; subst hk; subst hvj; exact ⟨by decide, _, rfl⟩
      · simp at hk hvj; subst hk; subst hvj; exact ⟨by decide, _, rfl⟩
      · simp at hk)
    (by decide) (by decide)
    (by
      intro a b ka kb ha hab hka hkb
      rcases b with _ | _ | _ | _ | _ | b
      · omega
      · omega
      · have ha1 : a = 1 := by omega
        subst ha1
        simp at hka hkb; subst hka; subst hkb; decide
      · have ha1 : a = 1 ∨ a = 2 := by omega
        rcases ha1 with rfl | rfl <;>
          (simp at hka hkb; subst hka; subst hkb; decide)
      · have ha1 : a = 1 ∨ a = 2 ∨ a = 3 := by omega
        rcases ha1 with rfl | rfl | rfl <;>
          (simp at hka hkb; subst hka; subst hkb; decide)
      · simp at hkb)

/-- C17 (deletions shrink as the TTL grows): for one reference time, one
well-formed batch and two positive TTLs `T1 ≤ T2` (32-bit) for which
`now.WallTime - T2 * 10^9` does not wrap around `int64`, every index marked
true under `T2` is marked true under `T1`; under a TTL that is zero or
negative the result is nil, so nothing is deleted there and the inclusion
does not extend to such a TTL. -/
theorem Filter_deletions_shrink_with_ttl (c : Codec) (gc1 gc2 : GarbageCollector)
    (keys : List EncodedKey) (values : List (List Nat)) (k0 : EncodedKey) (p1 p2 : GCPolicy)
    (hnow : gc2.now = gc1.now)
    (hlen : 2 ≤ keys.length) (hv : values.length = keys.length)
    (hk0 : keys[0]? = some k0) (hmeta : (c.MVCCDecodeKey k0).2.2 = false)
    (hwf : ∀ j k v, 1 ≤ j → keys[j]? = some k → values[j]? = some v →
      (c.MVCCDecodeKey k).2.2 = true ∧ ∃ mv, c.Unmarshal v = some mv)
    (hp1 : gc1.policyFn (c.MVCCDecodeKey k0).1 = some p1)
    (hp2 : gc2.policyFn (c.MVCCDecodeKey k0).1 = some p2)
    (ht1 : 0 < p1.TTLSeconds) (ht12 : p1.TTLSeconds ≤ p2.TTLSeconds)
    (ht2 : p2.TTLSeconds < 2147483648)
    (hnow64 : gc1.now.WallTime < 9223372036854775808)
    (hnowrap : -9223372036854775808 ≤ gc1.now.WallTime - p2.TTLSeconds * 1000000000) :
    (∃ l1 l2, Filter c gc1 keys values = .ok (some l1) ∧
      Filter c gc2 keys values = .ok (some l2) ∧
      l1.length = keys.length ∧ l2.length = keys.length ∧
      ∀ j : Nat, l2[j]? = some true → l1[j]? = some true) ∧
    (∀ (gc0 : GarbageCollector) (p0 : GCPolicy),
      gc0.policyFn (c.MVCCDecodeKey k0).1 = some p0 → p0.TTLSeconds ≤ 0 →
      Filter c gc0 keys values = .ok none) := by
  obtain ⟨rest, rfl⟩ := eq_cons_of_head keys k0 hk0
  have hn : rest ≠ [] := by
    intro h
    simp [h] at hlen
  constructor
  · obtain ⟨l1, ha1, ha2, ha3, ha4⟩ :=
      Filter_wellFormed c gc1 k0 rest values p1 hn hmeta hp1 ht1 (by omega) hwf
    obtain ⟨l2, hb1, hb2, hb3, _⟩ :=
      Filter_wellFormed c gc2 k0 rest values p2 hn hmeta hp2 (by omega) (by omega) hwf
    have he1 := expirationOf_exact gc1.now p1 (by omega) (by omega) (by omega) (by omega)
    have he2 := expirationOf_exact gc1.now p2 (by omega) (by omega) (by omega) (by omega)
    rw [hnow] at hb3
    have hmono : ∀ t : Timestamp, t.Less (expirationOf gc1.now p2) = true →
        t.Less (expirationOf gc1.now p1) = true := by
      intro t h
      rw [he2] at h
      rw [he1]
      rw [Less_iff] at h ⊢
      simp only at h ⊢
      omega
    refine ⟨l1, l2, ha1, hb1, ha2, hb2, ?_⟩
    intro j hj
    have hjlt : j < (k0 :: rest).length := by
      have := lt_length_of_getElem_opt l2 j true hj
      omega
    by_cases hs : ∃ j k v mv, 1 ≤ j ∧ (k0 :: rest)[j]? = some k ∧ values[j]? = some v ∧
        c.Unmarshal v = some mv ∧ mv.Deleted = false ∧
        (j = 1 ∨ (c.MVCCDecodeKey k).2.1.Less (expirationOf gc1.now p1) = false)
    · have hs2 : ∃ j k v mv, 1 ≤ j ∧ (k0 :: rest)[j]? = some k ∧ values[j]? = some v ∧
          c.Unmarshal v = some mv ∧ mv.Deleted = false ∧
          (j = 1 ∨ (c.MVCCDecodeKey k).2.1.Less (expirationOf gc1.now p2) = false) := by
        obtain ⟨m, k, v, mv, h1, h2, h3, h4, h5, h6⟩ := hs
        refine ⟨m, k, v, mv, h1, h2, h3, h4, h5, ?_⟩
        rcases h6 with h6 | h6
        · exact Or.inl h6
        · right
          cases hq : (c.MVCCDecodeKey k).2.1.Less (expirationOf gc1.now p2) with
          | false => rfl
          | true =>
            rw [hmono _ hq] at h6
            cases h6
      obtain ⟨hj2, k, hk, hless⟩ := (hb3 hs2 j).mp hj
      exact (ha3 hs j).mpr ⟨hj2, k, hk, hmono _ hless⟩
    · rw [ha4 hs]
      exact getElem_opt_replicate_of_lt _ _ _ hjlt
  · intro gc0 p0 hq hle
    apply Filter_exempt c gc0 k0 rest values hmeta
    intro q hq1
    rw [hq] at hq1
    cases hq1
    exact hle

/-- Witness for C17: TTLs of 100 and 150 seconds at `now = 200 s`, on a batch
with versions at 190 s, 70 s and 40 s. -/
theorem Filter_deletions_shrink_with_ttl_witness :
    (∃ l1 l2, Filter demoCodec demoGC [[0], [1, 190], [1, 70], [1, 40]] [[], [0], [0], [0]]
        = .ok (some l1) ∧
      Filter demoCodec demoGC150 [[0], [1, 190], [1, 70], [1, 40]] [[], [0], [0], [0]]
        = .ok (some l2) ∧
      l1.length = [[0], [1, 190], [1, 70], [1, 40]].length ∧
      l2.length = [[0], [1, 190], [1, 70], [1, 40]].length ∧
      ∀ j : Nat, l2[j]? = some true → l1[j]? = some true) ∧
    (∀ (gc0 : GarbageCollector) (p0 : GCPolicy),
      gc0.policyFn (demoCodec.MVCCDecodeKey [0]).1 = some p0 → p0.TTLSeconds ≤ 0 →
      Filter demoCodec gc0 [[0], [1, 190], [1, 70], [1, 40]] [[], [0], [0], [0]] = .ok none) :=
  Filter_deletions_shrink_with_ttl demoCodec demoGC demoGC150
    [[0], [1, 190], [1, 70], [1, 40]] [[], [0], [0], [0]] [0] ⟨100⟩ ⟨150⟩
    (by decide) (by decide) (by decide) (by decide) (by decide)
    (by
      intro j k v hj hk hvj
      rcases j with _ | _ | _ | _ | j
      · omega
      · simp at hk hvj; subst hk; subst hvj; exact ⟨by decide, _, rfl⟩
      · simp at hk hvj; subst hk; subst hvj; exact ⟨by decide, _, rfl⟩
      · simp at hk hvj; subst hk; subst hvj; exact ⟨by decide, _, rfl⟩
      · simp at hk)
    (by decide) (by decide) (by decide) (by decide) (by decide) (by decide) (by decide)

/-- C12 (the example scenarios of the specification): with a TTL of 100
seconds and `now = T0` (an `int64` clock for which `T0 - 200 s` is
representable), on well-formed entries `Filter` returns exactly
`[false, false, true]` for `[meta, v(T0-10s, live), v(T0-200s, live)]`,
`[false, false, false]` for `[meta, v(T0-10s, tombstone), v(T0-50s, live)]`,
`[true, true, true]` for `[meta, v(T0-10s, tombstone), v(T0-200s, live)]` and
`[true, true]` for `[meta, v(T0-10s, tombstone)]`. -/
theorem Filter_spec_scenarios (c : Codec) (gc : GarbageCollector) (p : GCPolicy)
    (kMeta kNew kMid kOld : EncodedKey) (vMeta vLive vTomb : List Nat)
    (mvLive mvTomb : MVCCValue)
    (hnow64 : gc.now.WallTime < 9223372036854775808)
    (hrep : -9223372036854775808 ≤ gc.now.WallTime - 200 * 1000000000)
    (hp : gc.policyFn (c.MVCCDecodeKey kMeta).1 = some p) (httl : p.TTLSeconds = 100)
    (hMeta : (c.MVCCDecodeKey kMeta).2.2 = false)
    (hNew : (c.MVCCDecodeKey kNew).2.2 = true)
    (hMid : (c.MVCCDecodeKey kMid).2.2 = true)
    (hOld : (c.MVCCDecodeKey kOld).2.2 = true)
    (hMidT : (c.MVCCDecodeKey kMid).2.1.WallTime = gc.now.WallTime - 50 * 1000000000)
    (hOldT : (c.MVCCDecodeKey kOld).2.1.WallTime = gc.now.WallTime - 200 * 1000000000)
    (hNewT : (c.MVCCDecodeKey kNew).2.1.WallTime = gc.now.WallTime - 10 * 1000000000)
    (hLive : c.Unmarshal vLive = some mvLive) (hLiveD : mvLive.Deleted = false)
    (hTomb : c.Unmarshal vTomb = some mvTomb) (hTombD : mvTomb.Deleted = true) :
    Filter c gc [kMeta, kNew, kOld] [vMeta, vLive, vLive] = .ok (some [false, false, true]) ∧
    Filter c gc [kMeta, kNew, kMid] [vMeta, vTomb, vLive] = .ok (some [false, false, false]) ∧
    Filter c gc [kMeta, kNew, kOld] [vMeta, vTomb, vLive] = .ok (some [true, true, true]) ∧
    Filter c gc [kMeta, kNew] [vMeta, vTomb] = .ok (some [true, true]) := by
  have he := expirationOf_exact gc.now p (by omega) (by omega) (by omega) (by omega)
  have hlessOld : (c.MVCCDecodeKey kOld).2.1.Less (expirationOf gc.now p) = true := by
    rw [he, Less_iff]
    simp only
    omega
  have hlessMid : ¬ (c.MVCCDecodeKey kMid).2.1.Less (expirationOf gc.now p) = true := by
    rw [he, Less_iff]
    simp only
    omega
  have hr3 : List.range 3 = [0, 1, 2] := by decide
  have hr2 : List.range 2 = [0, 1] := by decide
  have hpos : ¬ p.TTLSeconds ≤ 0 := by omega
  refine ⟨?_, ?_, ?_, ?_⟩
  · simp [Filter, filterLoop, setIdx, hp, hpos, hMeta, hNew, hOld, hLive, hLiveD, hlessOld]
  · simp [Filter, filterLoop, setIdx, hp, hpos, hMeta, hNew, hMid, hLive, hLiveD, hTomb,
      hTombD, hlessMid]
  · simp [Filter, filterLoop, setIdx, markAll, hr3, hp, hpos, hMeta, hNew, hOld, hLive,
      hLiveD, hTomb, hTombD, hlessOld]
  · simp [Filter, filterLoop, setIdx, markAll, hr2, hp, hpos, hMeta, hNew, hTomb, hTombD]

/-- Witness for C12: `T0 = 250 s`, with versions at 240 s, 200 s and 50 s. -/
theorem Filter_spec_scenarios_witness :
    Filter demoCodec demoGC250 [[0], [1, 240], [1, 50]] [[], [0], [0]]
      = .ok (some [false, false, true]) ∧
    Filter demoCodec demoGC250 [[0], [1, 240], [1, 200]] [[], [1], [0]]
      = .ok (some [false, false, false]) ∧
    Filter demoCodec demoGC250 [[0], [1, 240], [1, 50]] [[], [1], [0]]
      = .ok (some [true, true, true]) ∧
    Filter demoCodec demoGC250 [[0], [1, 240]] [[], [1]] = .ok (some [true, true]) :=
  Filter_spec_scenarios demoCodec demoGC250 ⟨100⟩ [0] [1, 240] [1, 200] [1, 50] [] [0] [1]
    ⟨false, []⟩ ⟨true, []⟩ (by decide) (by decide) (by decide) (by decide) (by decide)
    (by decide) (by decide) (by decide) (by decide) (by decide) (by decide) (by decide)
    (by decide) (by decide) (by decide)

/-- C11 (strict threshold, logical counter not adjusted): the expiration used
by `Filter` is the pair of the `int64` difference
`now.WallTime - TTLSeconds * 10^9` and the unchanged `now.Logical`; the
difference is the exact integer whenever it is representable.  In a
well-formed batch with a live newest version, a version at an index `i ≥ 2`
is marked exactly when its timestamp is lexicographically strictly less than
that pair: a timestamp equal to the threshold is not marked, one with the same
wall time and a smaller logical counter is marked, and one whose wall time is
one nanosecond larger is not marked. -/
theorem Filter_strict_threshold (c : Codec) (gc : GarbageCollector)
    (keys : List EncodedKey) (values : List (List Nat)) (k0 : EncodedKey) (p : GCPolicy)
    (hv : values.length = keys.length)
    (hk0 : keys[0]? = some k0) (hmeta : (c.MVCCDecodeKey k0).2.2 = false)
    (hwf : ∀ j k v, 1 ≤ j → keys[j]? = some k → values[j]? = some v →
      (c.MVCCDecodeKey k).2.2 = true ∧ ∃ mv, c.Unmarshal v = some mv)
    (hp : gc.policyFn (c.MVCCDecodeKey k0).1 = some p) (ht : 0 < p.TTLSeconds)
    (hlive : ∃ v mv, values[1]? = some v ∧ c.Unmarshal v = some mv ∧ mv.Deleted = false) :
    expirationOf gc.now p =
      ⟨wrapInt64 (gc.now.WallTime - wrapInt64 (p.TTLSeconds * 1000000000)),
        gc.now.Logical⟩ ∧
    (p.TTLSeconds < 2147483648 →
      -9223372036854775808 ≤ gc.now.WallTime - p.TTLSeconds * 1000000000 →
      gc.now.WallTime < 9223372036854775808 →
      expirationOf gc.now p =
        ⟨gc.now.WallTime - p.TTLSeconds * 1000000000, gc.now.Logical⟩) ∧
    ∃ l, Filter c gc keys values = .ok (some l) ∧ l.length = keys.length ∧
      ∀ i k, 2 ≤ i → keys[i]? = some k →
        (l[i]? = some true ↔
          ((c.MVCCDecodeKey k).2.1.WallTime < (expirationOf gc.now p).WallTime ∨
            ((c.MVCCDecodeKey k).2.1.WallTime = (expirationOf gc.now p).WallTime ∧
              (c.MVCCDecodeKey k).2.1.Logical < gc.now.Logical))) ∧
        ((c.MVCCDecodeKey k).2.1 = expirationOf gc.now p → l[i]? = some false) ∧
        ((c.MVCCDecodeKey k).2.1.WallTime = (expirationOf gc.now p).WallTime →
          (c.MVCCDecodeKey k).2.1.Logical < gc.now.Logical → l[i]? = some true) ∧
        ((c.MVCCDecodeKey k).2.1.WallTime = (expirationOf gc.now p).WallTime + 1 →
          l[i]? = some false) := by
  refine ⟨rfl, ?_, ?_⟩
  · intro h1 h2 h3
    exact expirationOf_exact gc.now p (by omega) h1 h2 (by omega)
  obtain ⟨rest, rfl⟩ := eq_cons_of_head keys k0 hk0
  obtain ⟨v1, mv1, hv1, hu1, hd1⟩ := hlive
  have hlen : 2 ≤ (k0 :: rest).length := by
    have := lt_length_of_getElem_opt values 1 v1 hv1
    omega
  have hn : rest ≠ [] := by
    intro h
    simp [h] at hlen
  obtain ⟨l, hl1, hl2, hl3, _⟩ :=
    Filter_wellFormed c gc k0 rest values p hn hmeta hp ht (by omega) hwf
  have hs : ∃ j k v mv, 1 ≤ j ∧ (k0 :: rest)[j]? = some k ∧ values[j]? = some v ∧
      c.Unmarshal v = some mv ∧ mv.Deleted = false ∧
      (j = 1 ∨ (c.MVCCDecodeKey k).2.1.Less (expirationOf gc.now p) = false) :=
    ⟨1, (k0 :: rest)[1], v1, mv1, Nat.le_refl _, List.getElem?_eq_getElem hlen, hv1, hu1, hd1,
      Or.inl rfl⟩
  have hl5 := hl3 hs
  have hlog : (expirationOf gc.now p).Logical = gc.now.Logical := rfl
  refine ⟨l, hl1, hl2, ?_⟩
  intro i k hi hk
  have hil : i < l.length := by
    have := lt_length_of_getElem_opt _ i k hk
    omega
  have hiff : l[i]? = some true ↔
      ((c.MVCCDecodeKey k).2.1.WallTime < (expirationOf gc.now p).WallTime ∨
        ((c.MVCCDecodeKey k).2.1.WallTime = (expirationOf gc.now p).WallTime ∧
          (c.MVCCDecodeKey k).2.1.Logical < gc.now.Logical)) := by
    rw [hl5 i, ← hlog, ← Less_iff]
    constructor
    · rintro ⟨_, k1, hk1, hless⟩
      rw [hk] at hk1
      cases hk1
      exact hless
    · intro hless
      exact ⟨hi, k, hk, hless⟩
  refine ⟨hiff, ?_, ?_, ?_⟩
  · intro heq
    apply getElem_opt_false_of_ne_true l i hil
    intro h
    have h1 := hiff.mp h
    rw [heq] at h1
    omega
  · intro hw hlg
    exact hiff.mpr (Or.inr ⟨hw, hlg⟩)
  · intro hw
    apply getElem_opt_false_of_ne_true l i hil
    intro h
    have h1 := hiff.mp h
    omega

/-- Witness for C11: the threshold is `(100 ns, logical 5)`; the older versions
are at `(100, 5)`, `(100, 4)` and `(101, 0)`. -/
theorem Filter_strict_threshold_witness :
    expirationOf fineGC.now ⟨1⟩ =
      ⟨wrapInt64 (fineGC.now.WallTime - wrapInt64 ((⟨1⟩ : GCPolicy).TTLSeconds * 1000000000)),
        fineGC.now.Logical⟩ ∧
    ((⟨1⟩ : GCPolicy).TTLSeconds < 2147483648 →
      -9223372036854775808 ≤ fineGC.now.WallTime - (⟨1⟩ : GCPolicy).TTLSeconds * 1000000000 →
      fineGC.now.WallTime < 9223372036854775808 →
      expirationOf fineGC.now ⟨1⟩ =
        ⟨fineGC.now.WallTime - (⟨1⟩ : GCPolicy).TTLSeconds * 1000000000,
          fineGC.now.Logical⟩) ∧
    ∃ l, Filter fineCodec fineGC [[0], [1, 200, 0], [1, 100, 5], [1, 100, 4], [1, 101, 0]]
        [[], [0], [0], [0], [0]] = .ok (some l) ∧
      l.length = [[0], [1, 200, 0], [1, 100, 5], [1, 100, 4], [1, 101, 0]].length ∧
      ∀ i k, 2 ≤ i →
        [[0], [1, 200, 0], [1, 100, 5], [1, 100, 4], [1, 101, 0]][i]? = some k →
        (l[i]? = some true ↔
          ((fineCodec.MVCCDecodeKey k).2.1.WallTime < (expirationOf fineGC.now ⟨1⟩).WallTime ∨
            ((fineCodec.MVCCDecodeKey k).2.1.WallTime = (expirationOf fineGC.now ⟨1⟩).WallTime ∧
              (fineCodec.MVCCDecodeKey k).2.1.Logical < fineGC.now.Logical))) ∧
        ((fineCodec.MVCCDecodeKey k).2.1 = expirationOf fineGC.now ⟨1⟩ → l[i]? = some false) ∧
        ((fineCodec.MVCCDecodeKey k).2.1.WallTime = (expirationOf fineGC.now ⟨1⟩).WallTime →
          (fineCodec.MVCCDecodeKey k).2.1.Logical < fineGC.now.Logical → l[i]? = some true) ∧
        ((fineCodec.MVCCDecodeKey k).2.1.WallTime = (expirationOf fineGC.now ⟨1⟩).WallTime + 1 →
          l[i]? = some false) :=
  Filter_strict_threshold fineCodec fineGC
    [[0], [1, 200, 0], [1, 100, 5], [1, 100, 4], [1, 101, 0]] [[], [0], [0], [0], [0]]
    [0] ⟨1⟩ (by decide) (by decide) (by decide)
    (by
      intro j k v hj hk hvj
      rcases j with _ | _ | _ | _ | _ | j
      · omega
      · simp at hk hvj; subst hk; subst hvj; exact ⟨by decide, _, rfl⟩
      · simp at hk hvj; subst hk; subst hvj; exact ⟨by decide, _, rfl⟩
      · simp at hk hvj; subst hk; subst hvj; exact ⟨by decide, _, rfl⟩
      · simp at hk hvj; subst hk; subst hvj; exact ⟨by decide, _, rfl⟩
      · simp at hk)
    (by decide) (by decide) ⟨[0], ⟨false, []⟩, by decide, by decide, by decide⟩

/-- The loop reads a value only through the success of `Unmarshal` and the
`Deleted` flag of its result. -/
theorem filterLoop_congr_values (c : Codec) (e : Timestamp) (n : Nat)
    (values1 values2 : List (List Nat)) (hlen : values1.length = values2.length) :
    ∀ (rest : List EncodedKey) (i : Nat) (td : List Bool) (s : Bool),
      (∀ j v1 v2, i + 1 ≤ j → values1[j]? = some v1 → values2[j]? = some v2 →
        (c.Unmarshal v1).map MVCCValue.Deleted = (c.Unmarshal v2).map MVCCValue.Deleted) →
      filterLoop c e n values1 rest i td s = filterLoop c e n values2 rest i td s := by
  intro rest
  induction rest with
  | nil => intro i td s _; rfl
  | cons k0 r ih =>
    intro i td s hag
    have hag1 : ∀ j v1 v2, i + 1 + 1 ≤ j → values1[j]? = some v1 → values2[j]? = some v2 →
        (c.Unmarshal v1).map MVCCValue.Deleted = (c.Unmarshal v2).map MVCCValue.Deleted :=
      fun j v1 v2 hj => hag j v1 v2 (by omega)
    unfold filterLoop
    by_cases hiv : (c.MVCCDecodeKey k0).2.2 = false
    · simp [hiv]
    simp only [hiv, if_false]
    by_cases hi : i + 1 < values1.length
    · have hi2 : i + 1 < values2.length := by omega
      have h1 : values1[i + 1]? = some values1[i + 1] := List.getElem?_eq_getElem hi
      have h2 : values2[i + 1]? = some values2[i + 1] := List.getElem?_eq_getElem hi2
      have hm := hag (i + 1) _ _ (Nat.le_refl _) h1 h2
      rw [h1, h2]
      simp only
      cases hu1 : c.Unmarshal values1[i + 1] with
      | none =>
        cases hu2 : c.Unmarshal values2[i + 1] with
        | none => rfl
        | some mv2 =>
          rw [hu1, hu2] at hm
          cases hm
      | some mv1 =>
        cases hu2 : c.Unmarshal values2[i + 1] with
        | none =>
          rw [hu1, hu2] at hm
          cases hm
        | some mv2 =>
          rw [hu1, hu2] at hm
          simp only [Option.map_some', Option.some.injEq] at hm
          simp only [hm]
          by_cases hi0 : i = 0
          · simp only [hi0, if_true]
            exact ih _ _ _ (by simpa [hi0] using hag1)
          · simp only [hi0, if_false]
            by_cases hl : (c.MVCCDecodeKey k0).2.1.Less e = true
            · simp only [hl, if_true]
              cases hset : setIdx td (i + 1) true with
              | error err => rfl
              | ok td1 => exact ih _ _ _ hag1
            · simp only [hl, if_false]
              exact ih _ _ _ hag1
    · have h1 : values1[i + 1]? = none := List.getElem?_eq_none (by omega)
      have h2 : values2[i + 1]? = none := List.getElem?_eq_none (by omega)
      rw [h1, h2]

/-- C15 (verdicts ignore the payload, and the tombstone status of expired old
versions): for one collector and one list of keys, two lists of values of the
same length give the same result of `Filter` when, at every index `i ≥ 1`,
the two values agree on whether they unmarshal and on the `Deleted` flag
(equal `Option.map Deleted` of `Unmarshal`), whatever the value at index 0 and
the payload bytes; and in a well-formed batch with a positive TTL they also
give the same result when they differ in the `Deleted` flag of one version at
an index `i ≥ 2` that is older than the expiration. -/
theorem Filter_ignores_payload (c : Codec) (gc : GarbageCollector)
    (keys : List EncodedKey) (values1 values2 : List (List Nat))
    (hlen : values1.length = values2.length) :
    ((∀ j v1 v2, 1 ≤ j → values1[j]? = some v1 → values2[j]? = some v2 →
        (c.Unmarshal v1).map MVCCValue.Deleted = (c.Unmarshal v2).map MVCCValue.Deleted) →
      Filter c gc keys values1 = Filter c gc keys values2) ∧
    (∀ (k0 : EncodedKey) (p : GCPolicy) (i : Nat) (k : EncodedKey),
      values1.length = keys.length →
      keys[0]? = some k0 → (c.MVCCDecodeKey k0).2.2 = false →
      (∀ j k v, 1 ≤ j → keys[j]? = some k → values1[j]? = some v →
        (c.MVCCDecodeKey k).2.2 = true ∧ ∃ mv, c.Unmarshal v = some mv) →
      (∀ j k v, 1 ≤ j → keys[j]? = some k → values2[j]? = some v →
        (c.MVCCDecodeKey k).2.2 = true ∧ ∃ mv, c.Unmarshal v = some mv) →
      gc.policyFn (c.MVCCDecodeKey k0).1 = some p → 0 < p.TTLSeconds →
      2 ≤ i → keys[i]? = some k →
      (c.MVCCDecodeKey k).2.1.Less (expirationOf gc.now p) = true →
      (∀ j v1 v2, 1 ≤ j → j ≠ i → values1[j]? = some v1 → values2[j]? = some v2 →
        (c.Unmarshal v1).map MVCCValue.Deleted = (c.Unmarshal v2).map MVCCValue.Deleted) →
      Filter c gc keys values1 = Filter c gc keys values2) := by
  constructor
  · intro hag
    unfold Filter
    split
    · rfl
    · cases keys with
      | nil => rfl
      | cons k0 rest =>
        have hcongr : ∀ e n td s, filterLoop c e n values1 rest 0 td s =
            filterLoop c e n values2 rest 0 td s :=
          fun e n td s => filterLoop_congr_values c e n values1 values2 hlen rest 0 td s
            (by simpa using hag)
        simp only [hcongr]
  · intro k0 p i k hv hk0 hmeta hwf1 hwf2 hp ht hi hk hless hag
    obtain ⟨rest, rfl⟩ := eq_cons_of_head keys k0 hk0
    have hik := lt_length_of_getElem_opt _ i k hk
    have hn : rest ≠ [] := by
      intro h
      simp [h] at hik
      omega
    obtain ⟨l1, ha1, ha2, ha3, ha4⟩ :=
      Filter_wellFormed c gc k0 rest values1 p hn hmeta hp ht (by omega) hwf1
    obtain ⟨l2, hb1, hb2, hb3, hb4⟩ :=
      Filter_wellFormed c gc k0 rest values2 p hn hmeta hp ht (by omega) hwf2
    have hsw : ∀ (va vb : List (List Nat)), va.length = vb.length →
        (∀ j v1 v2, 1 ≤ j → j ≠ i → va[j]? = some v1 → vb[j]? = some v2 →
          (c.Unmarshal v1).map MVCCValue.Deleted = (c.Unmarshal v2).map MVCCValue.Deleted) →
        (∃ j k v mv, 1 ≤ j ∧ (k0 :: rest)[j]? = some k ∧ va[j]? = some v ∧
          c.Unmarshal v = some mv ∧ mv.Deleted = false ∧
          (j = 1 ∨ (c.MVCCDecodeKey k).2.1.Less (expirationOf gc.now p) = false)) →
        (∃ j k v mv, 1 ≤ j ∧ (k0 :: rest)[j]? = some k ∧ vb[j]? = some v ∧
          c.Unmarshal v = some mv ∧ mv.Deleted = false ∧
          (j = 1 ∨ (c.MVCCDecodeKey k).2.1.Less (expirationOf gc.now p) = false)) := by
      intro va vb hl hab ⟨j, kj, v, mv, h1, h2, h3, h4, h5, h6⟩
      have hji : j ≠ i := by
        rintro rfl
        rw [hk] at h2
        cases h2
        rcases h6 with h6 | h6
        · omega
        · rw [hless] at h6
          cases h6
      have hjb : j < vb.length := by
        have := lt_length_of_getElem_opt va j v h3
        omega
      have hvb : vb[j]? = some vb[j] := List.getElem?_eq_getElem hjb
      have hm := hab j v _ h1 hji h3 hvb
      rw [h4] at hm
      cases hu : c.Unmarshal vb[j] with
      | none =>
        rw [hu] at hm
        cases hm
      | some mvb =>
        rw [hu] at hm
        simp only [Option.map_some', Option.some.injEq] at hm
        exact ⟨j, kj, _, mvb, h1, h2, hvb, hu, by rw [← hm]; exact h5, h6⟩
    rw [ha1, hb1]
    congr 2
    by_cases hs : ∃ j k v mv, 1 ≤ j ∧ (k0 :: rest)[j]? = some k ∧ values1[j]? = some v ∧
        c.Unmarshal v = some mv ∧ mv.Deleted = false ∧
        (j = 1 ∨ (c.MVCCDecodeKey k).2.1.Less (expirationOf gc.now p) = false)
    · have hs2 := hsw values1 values2 hlen hag hs
      apply bool_list_ext l1 l2 (by omega)
      intro j
      rw [ha3 hs j, hb3 hs2 j]
    · have hs2 : ¬ ∃ j k v mv, 1 ≤ j ∧ (k0 :: rest)[j]? = some k ∧ values2[j]? = some v ∧
          c.Unmarshal v = some mv ∧ mv.Deleted = false ∧
          (j = 1 ∨ (c.MVCCDecodeKey k).2.1.Less (expirationOf gc.now p) = false) := by
        intro h
        apply hs
        apply hsw values2 values1 hlen.symm ?_ h
        intro j v1 v2 h1 h2 h3 h4
        exact (hag j v2 v1 h1 h2 h4 h3).symm
      rw [ha4 hs, hb4 hs2]

/-- Witness for C15: against the first list of values, the second changes the
value at index 0 and the payloads, and the third turns the expired version at
index 2 into a tombstone. -/
theorem Filter_ignores_payload_witness :
    Filter demoCodec demoGC [[0], [1, 190], [1, 50]] [[], [0], [0, 7]] =
        Filter demoCodec demoGC [[0], [1, 190], [1, 50]] [[9], [0, 3], [0, 8]] ∧
      Filter demoCodec demoGC [[0], [1, 190], [1, 50]] [[], [0], [0, 7]] =
        Filter demoCodec demoGC [[0], [1, 190], [1, 50]] [[], [0], [1, 7]] :=
  ⟨(Filter_ignores_payload demoCodec demoGC [[0], [1, 190], [1, 50]] [[], [0], [0, 7]]
      [[9], [0, 3], [0, 8]] (by decide)).1
      (by
        intro j v1 v2 hj h1 h2
        rcases j with _ | _ | _ | j
        · omega
        · simp at h1 h2; subst h1; subst h2; decide
        · simp at h1 h2; subst h1; subst h2; decide
        · simp at h1),
    (Filter_ignores_payload demoCodec demoGC [[0], [1, 190], [1, 50]] [[], [0], [0, 7]]
      [[], [0], [1, 7]] (by decide)).2 [0] ⟨100⟩ 2 [1, 50] (by decide) (by decide) (by decide)
      (by
        intro j k v hj hk hvj
        rcases j with _ | _ | _ | j
        · omega
        · simp at hk hvj; subst hk; subst hvj; exact ⟨by decide, _, rfl⟩
        · simp at hk hvj; subst hk; subst hvj; exact ⟨by decide, _, rfl⟩
        · simp at hk)
      (by
        intro j k v hj hk hvj
        rcases j with _ | _ | _ | j
        · omega
        · simp at hk hvj; subst hk; subst hvj; exact ⟨by decide, _, rfl⟩
        · simp at hk hvj; subst hk; subst hvj; exact ⟨by decide, _, rfl⟩
        · simp at hk)
      (by decide) (by decide) (by decide) (by decide) (by decide)
      (by
        intro j v1 v2 hj hji h1 h2
        rcases j with _ | _ | _ | j
        · omega
        · simp at h1 h2; subst h1; subst h2; decide
        · omega
        · simp at h1)⟩

theorem closedSurvivors_iff (e : Timestamp) (newest : Timestamp × Bool)
    (older : List (Timestamp × Bool)) :
    closedSurvivors e newest older = true ↔
      (newest.2 = false ∨
        ∃ (m : Nat) (x : Timestamp × Bool),
          older[m]? = some x ∧ x.1.Less e = false ∧ x.2 = false) := by
  unfold closedSurvivors
  simp only [Bool.or_eq_true, Bool.not_eq_true', List.any_eq_true, Bool.and_eq_true]
  constructor
  · rintro (h | ⟨x, hx, h1, h2⟩)
    · exact Or.inl h
    · obtain ⟨m, hm⟩ := List.getElem?_of_mem hx
      exact Or.inr ⟨m, x, hm, h1, h2⟩
  · rintro (h | ⟨m, x, hm, h1, h2⟩)
    · exact Or.inl h
    · exact Or.inr ⟨x, List.getElem?_mem hm, h1, h2⟩

theorem closedForm_length (e : Timestamp) (newest : Timestamp × Bool)
    (older : List (Timestamp × Bool)) :
    (closedForm e newest older).length = older.length + 2 := by
  simp [closedForm]

theorem closedForm_true_iff (e : Timestamp) (newest : Timestamp × Bool)
    (older : List (Timestamp × Bool)) (j : Nat) :
    (closedForm e newest older)[j]? = some true ↔
      (j < older.length + 2 ∧
        (closedSurvivors e newest older = false ∨
          (2 ≤ j ∧ ∃ x, older[j - 2]? = some x ∧ x.1.Less e = true))) := by
  unfold closedForm
  rcases j with _ | _ | m
  · simp
  · simp
  · simp only [List.getElem?_cons_succ, List.getElem?_map, Option.map_eq_some',
      Bool.or_eq_true, Bool.not_eq_true', Nat.add_sub_cancel]
    constructor
    · rintro ⟨x, hx, h⟩
      have := lt_length_of_getElem_opt older m x hx
      have hidx : m + 1 + 1 - 2 = m := by omega
      refine ⟨by omega, ?_⟩
      rcases h with h | h
      · exact Or.inl h
      · exact Or.inr ⟨by omega, x, by rw [hidx]; exact hx, h⟩
    · rintro ⟨hm, h⟩
      have hm1 : m < older.length := by omega
      refine ⟨older[m], List.getElem?_eq_getElem hm1, ?_⟩
      rcases h with h | ⟨_, x, hx, h⟩
      · exact Or.inl h
      · have hidx : m + 1 + 1 - 2 = m := by omega
        rw [hidx, List.getElem?_eq_getElem hm1] at hx
        cases hx
        exact Or.inr h

/-- C16 (closed form of `Filter`): for a well-formed batch of `n ≥ 2` entries
whose policy has a positive TTL, with the versions at indices `1 .. n-1` read
as the pairs `(ts_i, del_i)` (the newest one and the list of the older ones),
let survivors be "the newest is not a tombstone, or some older version is
neither older than the expiration nor a tombstone"; then `Filter` returns the
slice of length `n` that is "not survivors" at indices 0 and 1 and "not
survivors, or older than the expiration" at every index from 2 on. -/
theorem Filter_eq_closedForm (c : Codec) (gc : GarbageCollector)
    (keys : List EncodedKey) (values : List (List Nat)) (k0 : EncodedKey) (p : GCPolicy)
    (newest : Timestamp × Bool) (older : List (Timestamp × Bool))
    (hv : values.length = keys.length)
    (hk0 : keys[0]? = some k0) (hmeta : (c.MVCCDecodeKey k0).2.2 = false)
    (hp : gc.policyFn (c.MVCCDecodeKey k0).1 = some p) (ht : 0 < p.TTLSeconds)
    (hn : keys.length = older.length + 2)
    (hvers : ∀ (i : Nat) (x : Timestamp × Bool), (newest :: older)[i]? = some x →
      ∃ k v mv, keys[i + 1]? = some k ∧ values[i + 1]? = some v ∧
        (c.MVCCDecodeKey k).2.2 = true ∧ (c.MVCCDecodeKey k).2.1 = x.1 ∧
        c.Unmarshal v = some mv ∧ mv.Deleted = x.2) :
    Filter c gc keys values =
        .ok (some (closedForm (expirationOf gc.now p) newest older)) ∧
      (closedForm (expirationOf gc.now p) newest older).length = keys.length := by
  obtain ⟨rest, rfl⟩ := eq_cons_of_head keys k0 hk0
  have hrest : rest ≠ [] := by
    intro h
    simp [h] at hn
  have hget : ∀ j k, 1 ≤ j → (k0 :: rest)[j]? = some k →
      ∃ x v mv, (newest :: older)[j - 1]? = some x ∧ values[j]? = some v ∧
        (c.MVCCDecodeKey k).2.2 = true ∧ (c.MVCCDecodeKey k).2.1 = x.1 ∧
        c.Unmarshal v = some mv ∧ mv.Deleted = x.2 := by
    intro j k hj hk
    have hjl := lt_length_of_getElem_opt _ j k hk
    have hjv : j - 1 < (newest :: older).length := by
      simp only [List.length_cons]
      omega
    obtain ⟨k1, v, mv, h1, h2, h3, h4, h5, h6⟩ :=
      hvers (j - 1) (newest :: older)[j - 1] (List.getElem?_eq_getElem hjv)
    have hidx : j - 1 + 1 = j := by omega
    rw [hidx] at h1 h2
    rw [hk] at h1
    cases h1
    exact ⟨_, v, mv, List.getElem?_eq_getElem hjv, h2, h3, h4, h5, h6⟩
  have hwf : ∀ j k v, 1 ≤ j → (k0 :: rest)[j]? = some k → values[j]? = some v →
      (c.MVCCDecodeKey k).2.2 = true ∧ ∃ mv, c.Unmarshal v = some mv := by
    intro j k v hj hk hvj
    obtain ⟨x, v1, mv, _, h2, h3, _, h5, _⟩ := hget j k hj hk
    rw [hvj] at h2
    cases h2
    exact ⟨h3, mv, h5⟩
  obtain ⟨l, hl1, hl2, hl3, hl4⟩ :=
    Filter_wellFormed c gc k0 rest values p hrest hmeta hp ht (by omega) hwf
  have hsurv : (∃ j k v mv, 1 ≤ j ∧ (k0 :: rest)[j]? = some k ∧ values[j]? = some v ∧
      c.Unmarshal v = some mv ∧ mv.Deleted = false ∧
      (j = 1 ∨ (c.MVCCDecodeKey k).2.1.Less (expirationOf gc.now p) = false)) ↔
      closedSurvivors (expirationOf gc.now p) newest older = true := by
    rw [closedSurvivors_iff]
    constructor
    · rintro ⟨j, k, v, mv, h1, h2, h3, h4, h5, h6⟩
      obtain ⟨x, v1, mv1, g1, g2, _, g4, g5, g6⟩ := hget j k h1 h2
      rw [h3] at g2
      cases g2
      rw [h4] at g5
      cases g5
      by_cases hj1 : j = 1
      · subst hj1
        simp only [Nat.sub_self, List.getElem?_cons_zero, Option.some.injEq] at g1
        left
        rw [g1, ← g6]
        exact h5
      · right
        have hidx : j - 1 = (j - 2) + 1 := by omega
        rw [hidx, List.getElem?_cons_succ] at g1
        refine ⟨j - 2, x, g1, ?_, by rw [← g6]; exact h5⟩
        rcases h6 with h6 | h6
        · exact absurd h6 hj1
        · rw [← g4]
          exact h6
    · rintro (h | ⟨m, x, hx, hx1, hx2⟩)
      · obtain ⟨k, v, mv, g1, g2, _, _, g5, g6⟩ := hvers 0 newest (by simp)
        exact ⟨1, k, v, mv, Nat.le_refl _, g1, g2, g5, by rw [g6]; exact h, Or.inl rfl⟩
      · obtain ⟨k, v, mv, g1, g2, _, g4, g5, g6⟩ := hvers (m + 1) x (by simpa using hx)
        exact ⟨m + 1 + 1, k, v, mv, by omega, g1, g2, g5, by rw [g6]; exact hx2,
          Or.inr (by rw [g4]; exact hx1)⟩
  have hlenEq : (closedForm (expirationOf gc.now p) newest older).length =
      (k0 :: rest).length := by
    rw [closedForm_length, hn]
  refine ⟨?_, hlenEq⟩
  rw [hl1]
  congr 2
  apply bool_list_ext _ _ (by omega)
  intro j
  rw [closedForm_true_iff]
  by_cases hs : ∃ j k v mv, 1 ≤ j ∧ (k0 :: rest)[j]? = some k ∧ values[j]? = some v ∧
      c.Unmarshal v = some mv ∧ mv.Deleted = false ∧
      (j = 1 ∨ (c.MVCCDecodeKey k).2.1.Less (expirationOf gc.now p) = false)
  · have hcs := hsurv.mp hs
    rw [hl3 hs j]
    constructor
    · rintro ⟨hj2, k, hk, hless⟩
      have hjl := lt_length_of_getElem_opt _ j k hk
      obtain ⟨x, _, _, g1, _, _, g4, _, _⟩ := hget j k (by omega) hk
      have hidx : j - 1 = (j - 2) + 1 := by omega
      rw [hidx, List.getElem?_cons_succ] at g1
      exact ⟨by omega, Or.inr ⟨hj2, x, g1, by rw [← g4]; exact hless⟩⟩
    · rintro ⟨hjl, h | ⟨hj2, x, hx, hless⟩⟩
      · rw [hcs] at h
        cases h
      · have hidx : j - 2 + 1 + 1 = j := by omega
        obtain ⟨k, _, _, g1, _, _, g4, _, _⟩ := hvers (j - 2 + 1) x (by simpa using hx)
        rw [hidx] at g1
        exact ⟨hj2, k, g1, by rw [g4]; exact hless⟩
  · have hcs : closedSurvivors (expirationOf gc.now p) newest older = false := by
      cases hq : closedSurvivors (expirationOf gc.now p) newest older with
      | false => rfl
      | true => exact absurd (hsurv.mpr hq) hs
    rw [hl4 hs]
    constructor
    · intro h
      have := lt_length_of_getElem_opt _ j true h
      simp only [List.length_replicate] at this
      exact ⟨by omega, Or.inl hcs⟩
    · rintro ⟨hjl, _⟩
      exact getElem_opt_replicate_of_lt _ _ _ (by omega)

/-- Witness for C16: a tombstone as newest version, an unexpired live version
and an expired live version. -/
theorem Filter_eq_closedForm_witness :
    Filter demoCodec demoGC [[0], [1, 190], [1, 150], [1, 50]] [[], [1], [0], [0]] =
        .ok (some (closedForm (expirationOf demoGC.now ⟨100⟩) (⟨190000000000, 0⟩, true)
          [(⟨150000000000, 0⟩, false), (⟨50000000000, 0⟩, false)])) ∧
      (closedForm (expirationOf demoGC.now ⟨100⟩) (⟨190000000000, 0⟩, true)
          [(⟨150000000000, 0⟩, false), (⟨50000000000, 0⟩, false)]).length =
        [[0], [1, 190], [1, 150], [1, 50]].length :=
  Filter_eq_closedForm demoCodec demoGC [[0], [1, 190], [1, 150], [1, 50]]
    [[], [1], [0], [0]] [0] ⟨100⟩ (⟨190000000000, 0⟩, true)
    [(⟨150000000000, 0⟩, false), (⟨50000000000, 0⟩, false)]
    (by decide) (by decide) (by decide) (by decide) (by decide) (by decide)
    (by
      intro i x hx
      rcases i with _ | _ | _ | i
      · simp at hx; subst hx; exact ⟨[1, 190], [1], ⟨true, []⟩, by decide⟩
      · simp at hx; subst hx; exact ⟨[1, 150], [0], ⟨false, []⟩, by decide⟩
      · simp at hx; subst hx; exact ⟨[1, 50], [0], ⟨false, []⟩, by decide⟩
      · simp at hx)

/-! ## The recorded calls -/

theorem filterLoopCalls_fst (c : Codec) (e : Timestamp) (n : Nat)
    (values : List (List Nat)) :
    ∀ (rest : List EncodedKey) (i : Nat) (td : List Bool) (s : Bool) (calls : List Call),
      (filterLoopCalls c e n values rest i td s calls).1 =
        filterLoop c e n values rest i td s := by
  intro rest
  induction rest with
  | nil => intro i td s calls; rfl
  | cons k0 r ih =>
    intro i td s calls
    unfold filterLoopCalls filterLoop
    by_cases hiv : (c.MVCCDecodeKey k0).2.2 = false
    · simp [hiv]
    simp only [hiv, if_false]
    cases hvi : values[i + 1]? with
    | none => rfl
    | some value =>
      simp only
      cases hu : c.Unmarshal value with
      | none => rfl
      | some mv =>
        simp only
        by_cases hi0 : i = 0
        · simp only [hi0, if_true]
          exact ih _ _ _ _
        · simp only [hi0, if_false]
          by_cases hl : (c.MVCCDecodeKey k0).2.1.Less e = true
          · simp only [hl, if_true]
            cases hset : setIdx td (i + 1) true with
            | error err => rfl
            | ok td1 => exact ih _ _ _ _
          · simp only [hl, if_false]
            exact ih _ _ _ _

/-- The result recorded by `FilterCalls` is the result of `Filter`. -/
theorem FilterCalls_fst (c : Codec) (gc : GarbageCollector) (keys : List EncodedKey)
    (values : List (List Nat)) :
    (FilterCalls c gc keys values).1 = Filter c gc keys values := by
  unfold FilterCalls Filter
  split
  · rfl
  · cases keys with
    | nil => rfl
    | cons k0 rest =>
      simp only
      split
      · rfl
      · cases hq : gc.policyFn (c.MVCCDecodeKey k0).1 with
        | none => rfl
        | some p =>
          simp only
          split
          · rfl
          · have h := filterLoopCalls_fst c (expirationOf gc.now p) (k0 :: rest).length values
              rest 0 (List.replicate (k0 :: rest).length false) false
              [.decodeKey k0, .policyFn (c.MVCCDecodeKey k0).1]
            rw [← h]
            rcases filterLoopCalls c (expirationOf gc.now p) (k0 :: rest).length values
              rest 0 (List.replicate (k0 :: rest).length false) false
              [.decodeKey k0, .policyFn (c.MVCCDecodeKey k0).1] with ⟨out, calls⟩
            cases out with
            | error err => rfl
            | ok ex =>
              cases ex with
              | ret result => rfl
              | done td sv =>
                simp only
                split
                · cases markAll (List.range (k0 :: rest).length) td <;> rfl
                · rfl

theorem filterLoopCalls_snd (c : Codec) (e : Timestamp) (n : Nat)
    (values : List (List Nat)) :
    ∀ (rest : List EncodedKey) (i : Nat) (td : List Bool) (s : Bool) (calls : List Call),
      ∃ t, (filterLoopCalls c e n values rest i td s calls).2 = calls ++ t := by
  intro rest
  induction rest with
  | nil => intro i td s calls; exact ⟨[], by simp [filterLoopCalls]⟩
  | cons k0 r ih =>
    intro i td s calls
    have hstep : ∀ (i1 : Nat) (td1 : List Bool) (s1 : Bool) (value : List Nat),
        ∃ t, (filterLoopCalls c e n values r i1 td1 s1
          (calls ++ [.decodeKey k0, .unmarshal value])).2 = calls ++ t := by
      intro i1 td1 s1 value
      obtain ⟨t, ht⟩ := ih i1 td1 s1 (calls ++ [.decodeKey k0, .unmarshal value])
      exact ⟨[.decodeKey k0, .unmarshal value] ++ t, by rw [ht, List.append_assoc]⟩
    unfold filterLoopCalls
    by_cases hiv : (c.MVCCDecodeKey k0).2.2 = false
    · exact ⟨[.decodeKey k0], by simp [hiv]⟩
    simp only [hiv, if_false]
    cases hvi : values[i + 1]? with
    | none => exact ⟨[.decodeKey k0], rfl⟩
    | some value =>
      simp only
      cases hu : c.Unmarshal value with
      | none => exact ⟨[.decodeKey k0, .unmarshal value], rfl⟩
      | some mv =>
        simp only
        by_cases hi0 : i = 0
        · simp only [hi0, if_true]
          exact hstep _ _ _ _
        · simp only [hi0, if_false]
          by_cases hl : (c.MVCCDecodeKey k0).2.1.Less e = true
          · simp only [hl, if_true]
            cases hset : setIdx td (i + 1) true with
            | error err => exact ⟨[.decodeKey k0, .unmarshal value], rfl⟩
            | ok td1 => exact hstep _ _ _ _
          · simp only [hl, if_false]
            exact hstep _ _ _ _

/-- On a batch of two or more keys the first recorded call is the decoding of
entry 0: the record is empty only where the code makes no call. -/
theorem FilterCalls_decodes_first (c : Codec) (gc : GarbageCollector)
    (k0 k1 : EncodedKey) (rest : List EncodedKey) (values : List (List Nat)) :
    ∃ t, (FilterCalls c gc (k0 :: k1 :: rest) values).2 = Call.decodeKey k0 :: t := by
  unfold FilterCalls
  have hne : ¬ (k0 :: k1 :: rest).length = 1 := by simp
  simp only [hne, if_false]
  split
  · exact ⟨[], rfl⟩
  · cases hq : gc.policyFn (c.MVCCDecodeKey k0).1 with
    | none => exact ⟨_, rfl⟩
    | some p =>
      simp only
      split
      · exact ⟨_, rfl⟩
      · obtain ⟨t, ht⟩ := filterLoopCalls_snd c (expirationOf gc.now p)
          (k0 :: k1 :: rest).length values (k1 :: rest) 0
          (List.replicate (k0 :: k1 :: rest).length false) false
          [.decodeKey k0, .policyFn (c.MVCCDecodeKey k0).1]
        revert ht
        rcases filterLoopCalls c (expirationOf gc.now p) (k0 :: k1 :: rest).length values
          (k1 :: rest) 0 (List.replicate (k0 :: k1 :: rest).length false) false
          [.decodeKey k0, .policyFn (c.MVCCDecodeKey k0).1] with ⟨out, calls⟩
        intro ht
        simp only at ht
        have hcalls : calls = Call.decodeKey k0 ::
            (Call.policyFn (c.MVCCDecodeKey k0).1 :: t) := by
          rw [ht]
          rfl
        cases out with
        | error err => exact ⟨_, hcalls⟩
        | ok ex =>
          cases ex with
          | ret result => exact ⟨_, hcalls⟩
          | done td sv =>
            simp only
            split
            · cases markAll (List.range (k0 :: k1 :: rest).length) td <;> exact ⟨_, hcalls⟩
            · exact ⟨_, hcalls⟩

/-- The calls on a governed three-entry batch, in the order of the code. -/
theorem FilterCalls_governed_batch :
    FilterCalls demoCodec demoGC [[0], [1, 190], [1, 50]] [[], [0], [0]] =
      (.ok (some [false, false, true]),
        [.decodeKey [0], .policyFn [], .decodeKey [1, 190], .unmarshal [0],
          .decodeKey [1, 50], .unmarshal [0]]) := by
  decide

end GC
